import Mathlib

/-!
Shallow embedding of the core of the `llmap` repository
(`src/cartographer/state.py`, `src/llmap/detector.py`, `src/llmap/modules.py`,
`src/llmap/parser/cpp.py`) together with proofs about the embedded operations.

Conventions used throughout:
* Python strings are `String`, Python ints are `Nat`/`Int`.
* A `pathlib.Path` is the list of its components (`Path.parts`), so
  `path.parent` is `List.dropLast`, `path.name` is the last component and
  `path.relative_to(root)` is `List.drop root.length` (legal exactly when
  `root` is a prefix of the path; the call sites below only ever pass paths
  produced by walking `root`).
* A Python `dict` that is only read through `[]`/`in` is a list of bindings in
  assignment order where a later binding for a key overrides an earlier one
  (`lookupLast`), or — for the dataclass state maps — a plain function that is
  pointwise updated.
* A Python `set` of strings is an insertion-ordered duplicate-free list with
  the guarded append `addSet`.
* Fallible Python code returns `Except PyError`.
-/

namespace LLMap

/-- Kinds of uncaught Python exceptions that the embedded code can raise. -/
inductive PyError where
  | attributeError
  | keyError
  | typeError
deriving DecidableEq

/-- Lookup in an assignment-ordered list of bindings: a later binding for the
same key overrides an earlier one, exactly like repeated assignment into a
Python `dict`. -/
def lookupLast {α : Type} : List (String × α) → String → Option α
  | [], _ => none
  | e :: rest, k =>
    match lookupLast rest k with
    | some v => some v
    | none => if e.1 = k then some e.2 else none

/-- Membership-guarded append: `s.add(x)` on a Python `set` modelled as an
insertion-ordered duplicate-free list. -/
def addSet (l : List String) (x : String) : List String :=
  if x ∈ l then l else l ++ [x]

/-- Apply `f` to the element at position `i`, leaving the rest of the list
unchanged (in-place mutation of one list element). -/
def modifyAt {α : Type} (f : α → α) : Nat → List α → List α
  | _, [] => []
  | 0, a :: as => f a :: as
  | n + 1, a :: as => a :: modifyAt f n as

/-- Concatenation of the images of `f`, in order. -/
def concatMap {α β : Type} (f : α → List β) : List α → List β
  | [] => []
  | a :: as => f a ++ concatMap f as

/-- Python `"/".join parts`. -/
def joinSlash (parts : List String) : String :=
  String.intercalate "/" parts

/-- Python `str(p)` for a relative path given by its parts; the empty part
list is the path `"."`. -/
def relString (parts : List String) : String :=
  if parts = [] then "." else joinSlash parts

/-- Last component of a path (`Path.name`), or `""` for an empty part list. -/
def lastD (parts : List String) : String :=
  parts.getLastD ""

/-! ### src/cartographer/state.py -/

/-- The `FileState` dataclass. -/
structure FileState where
  hash : String
  module : String
deriving DecidableEq

/-- The `ModuleState` dataclass. -/
structure ModuleState where
  generated_at : String
  source_hashes : List String
deriving DecidableEq

/-- The `State` dataclass; the `files` and `modules` dicts are modelled as
functions so that pointwise dict assignment is function update.  `update`
only ever stores strings in these maps, which is why their values are
string-typed here; the raw values seen by `_load` are modelled separately
below. -/
structure State where
  version : Nat := 1
  last_run : Option String := none
  files : String → Option FileState := fun _ => none
  modules : String → Option ModuleState := fun _ => none

/-- The file-upsert loop of `StateManager.update`:
`self.state.files[filepath] = FileState(hash=file_hash, module=module_name)`
for each batch entry in order. -/
def updateFilesMap (fs : String → Option FileState) :
    List (String × String × String) → (String → Option FileState)
  | [] => fs
  | (p, h, m) :: rest =>
    updateFilesMap (fun q => if q = p then some ⟨h, m⟩ else fs q) rest

/-- The `module_hashes` grouping loop of `StateManager.update`: hashes are
appended per module in batch order. -/
def moduleHashesAux (acc : String → List String) :
    List (String × String × String) → (String → List String)
  | [] => acc
  | (_, h, m) :: rest =>
    moduleHashesAux (fun q => if q = m then acc q ++ [h] else acc q) rest

/-- The finished `module_hashes` dict of `StateManager.update`. -/
def moduleHashes (files : List (String × String × String)) : String → List String :=
  moduleHashesAux (fun _ => []) files

/-- The module names occurring in a batch; these are the keys of
`module_hashes`. -/
def batchModules (files : List (String × String × String)) : List String :=
  files.map (fun e => e.2.2)

/-- `StateManager.update`, with the `datetime.utcnow()` timestamp supplied as
the parameter `now`.  Every module occurring in the batch gets a fresh
`ModuleState` built from the grouped hashes; everything else is kept. -/
def StateManager.update (st : State) (now : String)
    (files : List (String × String × String)) : State :=
  { st with
    last_run := some now
    files := updateFilesMap st.files files
    modules := fun m =>
      if (batchModules files).contains m then some ⟨now, moduleHashes files m⟩
      else st.modules m }

/-- `StateManager.get_file_hash`. -/
def StateManager.get_file_hash (st : State) (filepath : String) : Option String :=
  match st.files filepath with
  | some fs => some fs.hash
  | none => none

/-! #### The `_load` side of state.py

`json.load` can hand `_load` an arbitrary JSON document, and the dataclasses
are untyped at runtime, so the loaded state is modelled with raw JSON values
in every field that `_load` copies out of the document. -/

/-- Parsed JSON values.  A JSON `null` is Python `None`. -/
inductive Json where
  | null
  | bool (b : Bool)
  | num (n : Int)
  | str (s : String)
  | arr (elems : List Json)
  | obj (fields : List (String × Json))

/-- What the state file on disk can present to `_load`: no file at the path,
bytes that `json.load` rejects (`JSONDecodeError`/`IOError`, both caught), or
a successfully parsed document. -/
inductive StateFile where
  | missing
  | unparsable
  | parsed (data : Json)

/-- Python `d.get(k, default)`: `AttributeError` unless the value is a dict;
duplicate keys in the source document behave like repeated assignment. -/
def Json.dictGetD (j : Json) (k : String) (d : Json) : Except PyError Json :=
  match j with
  | .obj fields =>
    match lookupLast fields k with
    | some v => .ok v
    | none => .ok d
  | _ => .error .attributeError

/-- Python `d.items()`: `AttributeError` unless the value is a dict. -/
def Json.itemsE (j : Json) : Except PyError (List (String × Json)) :=
  match j with
  | .obj fields => .ok fields
  | _ => .error .attributeError

/-- Python subscription `x[k]` with a string key: `KeyError` for a dict
without the key, `TypeError` for any non-dict value. -/
def Json.indexE (j : Json) (k : String) : Except PyError Json :=
  match j with
  | .obj fields =>
    match lookupLast fields k with
    | some v => .ok v
    | none => .error .keyError
  | _ => .error .typeError

/-- A `FileState` as `_load` builds it, with raw JSON field values. -/
structure LoadedFileState where
  hash : Json
  module : Json

/-- A `ModuleState` as `_load` builds it, with raw JSON field values. -/
structure LoadedModuleState where
  generated_at : Json
  source_hashes : Json

/-- The `State` dataclass as `_load` builds it.  The defaults are the
dataclass defaults of `State()` (`version=1`, `last_run=None`, empty maps). -/
structure LoadedState where
  version : Json := .num 1
  last_run : Json := .null
  files : List (String × LoadedFileState) := []
  modules : List (String × LoadedModuleState) := []

/-- `StateManager._load`: a missing path or a `json.load` failure yields the
default `State()`; a parsed document is copied field by field, and any
uncaught exception raised on the way out is an `.error`. -/
def StateManager.load : StateFile → Except PyError LoadedState
  | .missing => .ok {}
  | .unparsable => .ok {}
  | .parsed data => do
    let version ← data.dictGetD "version" (.num 1)
    let lastRun ← data.dictGetD "last_run" .null
    let filesJ ← data.dictGetD "files" (.obj [])
    let fitems ← filesJ.itemsE
    let files ← fitems.mapM (fun e => do
      let h ← e.2.indexE "hash"
      let m ← e.2.indexE "module"
      pure (e.1, LoadedFileState.mk h m))
    let modulesJ ← data.dictGetD "modules" (.obj [])
    let mitems ← modulesJ.itemsE
    let mods ← mitems.mapM (fun e => do
      let g ← e.2.indexE "generated_at"
      let s ← e.2.indexE "source_hashes"
      pure (e.1, LoadedModuleState.mk g s))
    pure { version := version, last_run := lastRun, files := files, modules := mods }

/-! ### src/llmap/detector.py -/

/-- `ChangeDetector.get_changed_files`, with the `(root-relative path string,
digest)` pairs returned by `get_all_files` supplied as a parameter (the file
walk itself is I/O; hashing is deterministic on content, so byte-identical
contents give the identical pair list). -/
def ChangeDetector.get_changed_files (st : State)
    (allFiles : List (String × String)) : List (String × String) :=
  allFiles.filter (fun e => decide (StateManager.get_file_hash st e.1 ≠ some e.2))

/-! ### src/llmap/modules.py -/

/-- The `Module` dataclass.  `files` holds absolute `(path, hash)` members;
the `dependencies`/`dependents` sets are insertion-ordered duplicate-free
lists manipulated only through `addSet`. -/
structure Module where
  name : String
  path : List String
  files : List (List String × String) := []
  dependencies : List String := []
  dependents : List String := []
deriving DecidableEq

/-- The `modules` section of `Config` (`config.modules.strategy`,
`config.modules.depth`). -/
structure ModulesConfig where
  strategy : String
  depth : Nat
deriving DecidableEq

/-- The part of `Config` that module grouping reads. -/
structure Config where
  modules : ModulesConfig
deriving DecidableEq

/-- Position of the last `'.'` of a name, Python `name.rfind('.')` restricted
to a found dot. -/
def lastDotIdx (cs : List Char) : Option Nat :=
  match cs.reverse.findIdx? (fun c => c = '.') with
  | some j => some (cs.length - 1 - j)
  | none => none

/-- `Path(name).with_suffix("")` on a single path component: the suffix
starts at the last dot, provided that dot is neither the leading character
nor the trailing one. -/
def withSuffixEmpty (nameStr : String) : String :=
  let cs := nameStr.toList
  match lastDotIdx cs with
  | some i => if 0 < i ∧ i + 1 < cs.length then String.mk (cs.take i) else nameStr
  | none => nameStr

/-- `ModuleGrouper._get_module_name`, applied to the parts of
`path.relative_to(self.root)`. -/
def ModuleGrouper.getModuleName (cfg : Config) (parts : List String) : String :=
  if cfg.modules.strategy = "directory" then
    if parts.length > cfg.modules.depth then joinSlash (parts.take cfg.modules.depth)
    else if parts.length > 1 then joinSlash parts.dropLast
    else "root"
  else if cfg.modules.strategy = "file" then
    relString (if parts = [] then [] else parts.dropLast ++ [withSuffixEmpty (lastD parts)])
  else
    if parts.length > 1 then joinSlash parts.dropLast
    else "root"

/-- The module-path computation inside `ModuleGrouper.group_files` for a
newly created module. -/
def ModuleGrouper.modulePath (cfg : Config) (root : List String)
    (path : List String) : List String :=
  let parts := path.drop root.length
  if cfg.modules.strategy = "directory" then
    if parts.length > cfg.modules.depth then root ++ parts.take cfg.modules.depth
    else path.dropLast
  else path.dropLast

/-- One iteration of the `group_files` loop: create the module on first
sight of its name (the `modules` dict never holds two entries with one name,
so updating by name is the dict update), then `add_file`. -/
def ModuleGrouper.addFileStep (cfg : Config) (root : List String)
    (ms : List Module) (pf : List String × String) : List Module :=
  let mname := ModuleGrouper.getModuleName cfg (pf.1.drop root.length)
  if ms.any (fun m => m.name == mname) then
    ms.map (fun m => if m.name = mname then { m with files := m.files ++ [pf] } else m)
  else
    ms ++ [{ name := mname, path := ModuleGrouper.modulePath cfg root pf.1, files := [pf] }]

/-- `ModuleGrouper.group_files`: bucket a `(path, hash)` batch into modules,
preserving first-seen module order (`list(modules.values())`). -/
def ModuleGrouper.group_files (cfg : Config) (root : List String)
    (files : List (List String × String)) : List Module :=
  files.foldl (ModuleGrouper.addFileStep cfg root) []

/-- The `DependencyResolver` object after `__init__`. -/
structure DependencyResolver where
  root : List String
  modules : List Module
  file_to_module : List (String × String)

/-- `DependencyResolver.__init__`: one combined index maps both the
root-relative path string and the bare filename of every member file to the
owning module's name, in registration order (modules in list order, files in
member order, the relative-path binding before the filename binding). -/
def DependencyResolver.init (root : List String) (modules : List Module) :
    DependencyResolver :=
  { root := root
    modules := modules
    file_to_module :=
      concatMap (fun m =>
        concatMap (fun pf =>
          [(relString (pf.1.drop root.length), m.name), (lastD pf.1, m.name)]) m.files)
        modules }

/-- Whether the import text is an absolute POSIX path
(`import_name.startswith("/")`, written on the character list so that it is
kernel-evaluable). -/
def startsWithSlash (text : String) : Bool :=
  match text.data with
  | [] => false
  | c :: _ => c = '/'

/-- Character-level split on `'/'`; agrees with splitting the string on the
separator `"/"` and is kernel-evaluable. -/
def splitOnSlashChars : List Char → List (List Char)
  | [] => [[]]
  | c :: rest =>
    if c = '/' then [] :: splitOnSlashChars rest
    else
      match splitOnSlashChars rest with
      | g :: gs => (c :: g) :: gs
      | [] => [[c]]

/-- `Path(text).parts` for an import text: split on `"/"`, dropping empty
components and `"."`. -/
def parseParts (text : String) : List String :=
  ((splitOnSlashChars text.data).map (fun cs => String.mk cs)).filter
    (fun seg => seg != "" && seg != ".")

/-- Lexical effect of `Path.resolve()` on the parts of an absolute path (no
symlinks are involved in the embedding): `".."` removes the previous
component and is a no-op at the filesystem root, `"."` disappears. -/
def normalizeParts (parts : List String) : List String :=
  parts.foldl (fun acc seg =>
    if seg = ".." then acc.dropLast else if seg = "." then acc else acc ++ [seg]) []

/-- Boolean list-prefix test (the success condition of
`path.relative_to(root)`). -/
def isPrefixList : List String → List String → Bool
  | [], _ => true
  | _ :: _, [] => false
  | a :: as, b :: bs => a == b && isPrefixList as bs

/-- `import_path = (importing_file.parent / import_name).resolve()`: join
the text onto the importing file's directory (an absolute text replaces the
base entirely) and normalize. -/
def resolvedImportPath (importing_file : List String) (import_name : String) :
    List String :=
  normalizeParts
    ((if startsWithSlash import_name then [] else importing_file.dropLast) ++
      parseParts import_name)

/-- The `try` block of `resolve_import`: resolve the text against the
importing file's directory, normalize, and look the root-relative string up
in the combined index.  A path that escapes `root` makes `relative_to` raise
`ValueError`, which the source catches and turns into `None`. -/
def DependencyResolver.relativeLookup (r : DependencyResolver)
    (importing_file : List String) (import_name : String) : Option String :=
  if isPrefixList r.root (resolvedImportPath importing_file import_name) then
    lookupLast r.file_to_module
      (relString ((resolvedImportPath importing_file import_name).drop r.root.length))
  else none

/-- `DependencyResolver.resolve_import`: direct lookup of the import text in
the combined index first, then the relative-path resolution. -/
def DependencyResolver.resolve_import (r : DependencyResolver)
    (importing_file : List String) (import_name : String) : Option String :=
  match lookupLast r.file_to_module import_name with
  | some m => some m
  | none => r.relativeLookup importing_file import_name

/-- The `ImportInfo` record produced by the parser. -/
structure ImportInfo where
  name : String
  is_system : Bool
deriving DecidableEq

/-- The part of a parsed `FileStructure` that dependency resolution reads:
the file's (absolute) path and its import list. -/
structure FileStructure where
  path : List String
  imports : List ImportInfo
deriving DecidableEq

/-- `module.dependencies.add(target)`. -/
def addDependency (t : String) (m : Module) : Module :=
  { m with dependencies := addSet m.dependencies t }

/-- `module.dependents.add(srcName)`. -/
def addDependent (srcName : String) (m : Module) : Module :=
  { m with dependents := addSet m.dependents srcName }

/-- Mutation through the `module_by_name` dict: the dict maps a name to the
last module object registered under it, so updating `module_by_name[t]`
updates the last list entry named `t`. -/
def updateLastNamed (t : String) (f : Module → Module) : List Module → List Module
  | [] => []
  | m :: rest =>
    if rest.any (fun x => x.name == t) then m :: updateLastNamed t f rest
    else if m.name = t then f m :: rest
    else m :: updateLastNamed t f rest

/-- The body of the innermost loop of `build_dependency_graph` for a single
imported name of the module at position `i` (whose name is `ownerName` and
whose structure's path is `fpath`).  `names` is the key list of
`module_by_name`, built once from the resolver's module list. -/
def processImport (r : DependencyResolver) (names : List String) (i : Nat)
    (ownerName : String) (fpath : List String) (ms : List Module)
    (imp : ImportInfo) : List Module :=
  if imp.is_system then ms
  else
    match r.resolve_import fpath imp.name with
    | none => ms
    | some t =>
      if t = ownerName then ms
      else if names.contains t then
        updateLastNamed t (addDependent ownerName) (modifyAt (addDependency t) i ms)
      else modifyAt (addDependency t) i ms

/-- `DependencyResolver.build_dependency_graph`.  The source iterates over
`self.modules` while mutating the module objects' dependency sets in place;
names, paths and file lists never change during the walk, so iterating by
position over the evolving list is the faithful rendering.  The result is the
module list after the walk. -/
def DependencyResolver.build_dependency_graph (r : DependencyResolver)
    (module_structures : String → List FileStructure) : List Module :=
  (List.range r.modules.length).foldl (fun ms i =>
    match ms[i]? with
    | none => ms
    | some m =>
      (module_structures m.name).foldl (fun ms2 s =>
        s.imports.foldl
          (fun ms3 imp =>
            processImport r (r.modules.map (fun x => x.name)) i m.name s.path ms3 imp)
          ms2)
        ms)
    r.modules

/-- The resolver described by the spec's words, kept for comparison with the
source's `DependencyResolver`: the spec prescribes two separate indexes
("root-relative path → module name, and bare filename → module name"). -/
def bareNameIndex (modules : List Module) : List (String × String) :=
  concatMap (fun m => m.files.map (fun pf => (lastD pf.1, m.name))) modules

/-- The spec's root-relative-path index, second half of the comparison
model. -/
def relPathIndex (root : List String) (modules : List Module) :
    List (String × String) :=
  concatMap (fun m => m.files.map (fun pf => (relString (pf.1.drop root.length), m.name)))
    modules

/-- `resolveImport` as the spec words it: "(1) exact bare-filename lookup; if
it fails, (2) resolve text relative to fromFile's directory, normalize, and
look up by root-relative path".  Compared against
`DependencyResolver.resolve_import` below. -/
def resolveImportSpec (root : List String) (modules : List Module)
    (importing_file : List String) (import_name : String) : Option String :=
  match lookupLast (bareNameIndex modules) import_name with
  | some m => some m
  | none =>
    if isPrefixList root (resolvedImportPath importing_file import_name) then
      lookupLast (relPathIndex root modules)
        (relString ((resolvedImportPath importing_file import_name).drop root.length))
    else none

/-- The `(member path, owning module name)` pairs in the order
`DependencyResolver.__init__` walks them. -/
def registrations (modules : List Module) : List (List String × String) :=
  concatMap (fun m => m.files.map (fun pf => (pf.1, m.name))) modules

/-! ### src/llmap/parser/cpp.py

A tree-sitter syntax node carries its node type, the source text it spans
(`content[start_byte:end_byte]` decoded), its start/end rows, and its
children, each optionally labelled with a field name
(`child_by_field_name`).  Parent pointers of the source become the ancestor
chain carried by the traversal. -/

inductive Node where
  | mk (type : String) (text : String) (lineStart : Nat) (lineEnd : Nat)
       (children : List (Option String × Node))

/-- Node type accessor. -/
def Node.type : Node → String
  | .mk t _ _ _ _ => t

/-- Spanned-text accessor (`_get_text`). -/
def Node.text : Node → String
  | .mk _ tx _ _ _ => tx

/-- Start row accessor (`start_point[0]`). -/
def Node.lineStart : Node → Nat
  | .mk _ _ ls _ _ => ls

/-- End row accessor (`end_point[0]`). -/
def Node.lineEnd : Node → Nat
  | .mk _ _ _ le _ => le

/-- Children accessor. -/
def Node.children : Node → List (Option String × Node)
  | .mk _ _ _ _ cs => cs

/-- `node.child_by_field_name(f)`: the first child carrying field name `f`. -/
def childByFieldName (n : Node) (f : String) : Option Node :=
  match n.children.find? (fun c => c.1 == some f) with
  | some c => some c.2
  | none => none

/-- The `FunctionInfo` record of parser/base.py (the fields cpp.py fills). -/
structure FunctionInfo where
  name : String
  signature : String
  line_start : Nat
  line_end : Nat
deriving DecidableEq

mutual

/-- `CppParser._find_function_name`: unwrap a declarator down to an
identifier.  The source's `function_declarator` case computes
`child_by_field_name("declarator")` and, when a child is found, returns the
recursive result unconditionally (even `None`); `declChildSearch` fuses that
child search with the recursive call (the fusion is validated against
`childByFieldName` by `declChildSearch_eq` below).  The final loop over all
children skips a falsy (empty) string result, mirroring
`if result: return result`. -/
def findFunctionName : Node → Option String
  | .mk ty tx ls le cs =>
    if ty = "identifier" then some tx
    else
      match (if ty = "qualified_identifier"
             then childByFieldName (.mk ty tx ls le cs) "name" else none) with
      | some nameNode => some nameNode.text
      | none =>
        if ty = "function_declarator" then
          match declChildSearch cs with
          | some r => r
          | none => searchNameInChildren cs
        else searchNameInChildren cs

/-- The `function_declarator` step of `_find_function_name`:
`some r` when a `"declarator"`-labelled child exists (`r` being the
recursive result on it, possibly `none`), and `none` when no child carries
that field, in which case the caller falls through to the child loop. -/
def declChildSearch : List (Option String × Node) → Option (Option String)
  | [] => none
  | c :: rest =>
    if c.1 == some "declarator" then some (findFunctionName c.2)
    else declChildSearch rest

/-- The trailing `for child in declarator.children` loop of
`_find_function_name`. -/
def searchNameInChildren : List (Option String × Node) → Option String
  | [] => none
  | c :: rest =>
    match findFunctionName c.2 with
    | some s => if s = "" then searchNameInChildren rest else some s
    | none => searchNameInChildren rest

end

/-- `CppParser._extract_function_info`. -/
def extractFunctionInfo (n : Node) : Option FunctionInfo :=
  match childByFieldName n "declarator" with
  | none => none
  | some declarator =>
    match findFunctionName declarator with
    | none => none
    | some nm =>
      if nm = "" then none
      else
        let sig :=
          match childByFieldName n "type" with
          | some tyNode => tyNode.text ++ " " ++ declarator.text
          | none => declarator.text
        some { name := nm, signature := sig.trim,
               line_start := n.lineStart + 1, line_end := n.lineEnd + 1 }

mutual

/-- `CppParser._find_nodes` (preorder collection of nodes of one type),
enriched with the chain of ancestor node types, nearest first — exactly the
order in which the source's `while parent:` loop visits parent pointers. -/
def findNodesAnc (t : String) (anc : List String) : Node → List (Node × List String)
  | .mk ty tx ls le cs =>
    (if ty = t then [(Node.mk ty tx ls le cs, anc)] else []) ++
      findNodesAncList t (ty :: anc) cs

/-- Child traversal of `findNodesAnc`. -/
def findNodesAncList (t : String) (anc : List String) :
    List (Option String × Node) → List (Node × List String)
  | [] => []
  | c :: rest => findNodesAnc t anc c.2 ++ findNodesAncList t anc rest

end

/-- The `while parent:` loop of `_extract_functions` on the ancestor-type
chain: `True` as soon as a `class_specifier`/`struct_specifier` is met
(`break`), `False` when the chain is exhausted (the loop's `else`). -/
def hasClassAncestor : List String → Bool
  | [] => false
  | ty :: rest =>
    if ty = "class_specifier" ∨ ty = "struct_specifier" then true
    else hasClassAncestor rest

/-- `CppParser._extract_functions`: collect every `function_definition`
node, keep the ones whose parent walk meets no class/struct specifier, and
record those for which `_extract_function_info` produces a truthy result. -/
def CppParser.extractFunctions (root : Node) : List FunctionInfo :=
  (findNodesAnc "function_definition" [] root).filterMap (fun p =>
    if hasClassAncestor p.2 then none else extractFunctionInfo p.1)

/-! ### Concrete inputs used by the witnesses and counterexamples below -/

/-- Project root used by the graph scenario of spec §8. -/
def scnRoot : List String := ["r"]

/-- The `src/parser` module of the scenario. -/
def scnParser : Module :=
  { name := "src/parser", path := ["r", "src", "parser"],
    files := [(["r", "src", "parser", "a.h"], "h1")] }

/-- The `src/codegen` module of the scenario. -/
def scnCodegen : Module :=
  { name := "src/codegen", path := ["r", "src", "codegen"],
    files := [(["r", "src", "codegen", "c.cpp"], "h2")] }

/-- `src/codegen/c.cpp` imports `"../parser/a.h"` (non-system) and
`<vector>` (system). -/
def scnMstr : String → List FileStructure := fun n =>
  if n = "src/codegen" then
    [{ path := ["r", "src", "codegen", "c.cpp"],
       imports := [⟨"../parser/a.h", false⟩, ⟨"vector", true⟩] }]
  else []

/-- The graph the scenario builds. -/
def scnBuild : List Module :=
  (DependencyResolver.init scnRoot [scnParser, scnCodegen]).build_dependency_graph scnMstr

/-- `src/parser` after the scenario walk: it gained `src/codegen` as a
dependent. -/
def scnParserOut : Module :=
  { name := "src/parser", path := ["r", "src", "parser"],
    files := [(["r", "src", "parser", "a.h"], "h1")],
    dependents := ["src/codegen"] }

/-- `src/codegen` after the scenario walk: it gained `src/parser` as a
dependency. -/
def scnCodegenOut : Module :=
  { name := "src/codegen", path := ["r", "src", "codegen"],
    files := [(["r", "src", "codegen", "c.cpp"], "h2")],
    dependencies := ["src/parser"] }

/-- Mirror-symmetry of a module list's adjacency sets, indexed by position:
the name of the module at `p` is among the dependencies of the module at `q`
exactly when the name at `q` is among the dependents at `p`. -/
def GraphSym (ms : List Module) : Prop :=
  ∀ p q (hp : p < ms.length) (hq : q < ms.length),
    ms[p].name ∈ ms[q].dependencies ↔ ms[q].name ∈ ms[p].dependents

/-- One module list extends another: same names in the same positions, and
position-wise the dependency/dependent sets only grow.  Every step of the
graph walk is such an extension. -/
def GraphLE (ms ms' : List Module) : Prop :=
  ms'.map (fun m => m.name) = ms.map (fun m => m.name) ∧
  ∀ (j : Nat) (a b : Module), ms[j]? = some a → ms'[j]? = some b →
    a.dependencies ⊆ b.dependencies ∧ a.dependents ⊆ b.dependents

/-- No module of the list carries itself among its dependencies or
dependents. -/
def NoSelfEdges (ms : List Module) : Prop :=
  ∀ j (hj : j < ms.length),
    ms[j].name ∉ ms[j].dependencies ∧ ms[j].name ∉ ms[j].dependents

/-- Single module owning `src/a.h`, used to separate the combined-index
lookup from the spec's bare-filename lookup. -/
def c5mods : List Module :=
  [{ name := "M", path := ["r", "src"], files := [(["r", "src", "a.h"], "h")] }]

/-- Two modules owning files with the same bare filename `a.h`. -/
def c9mods : List Module :=
  [{ name := "M1", path := ["r", "src"], files := [(["r", "src", "a.h"], "h1")] },
   { name := "M2", path := ["r", "lib"], files := [(["r", "lib", "a.h"], "h2")] }]

/-- `operator_name` declarator node of `operator+`: none of its children is
an identifier, so `_find_function_name` comes up empty on it. -/
def c8opName : Node :=
  .mk "operator_name" "operator+" 0 0
    [(none, .mk "operator" "operator" 0 0 []), (none, .mk "+" "+" 0 0 [])]

/-- `function_declarator` of a free `operator+` definition. -/
def c8fnDecl : Node :=
  .mk "function_declarator" "operator+(A a, A b)" 0 0
    [(some "declarator", c8opName),
     (some "parameters", .mk "parameter_list" "(A a, A b)" 0 0 [])]

/-- Top-level `function_definition` node for `int operator+(A a, A b) { }`. -/
def c8fnDef : Node :=
  .mk "function_definition" "int operator+(A a, A b) { }" 0 0
    [(some "type", .mk "primitive_type" "int" 0 0 []),
     (some "declarator", c8fnDecl),
     (some "body", .mk "compound_statement" "{ }" 0 0 [])]

/-- A translation unit whose only definition is the free `operator+`. -/
def c8tree : Node := .mk "translation_unit" "" 0 0 [(none, c8fnDef)]

/-! ## Lemmas about the generic helpers -/

theorem lookupLast_append {α : Type} (l1 l2 : List (String × α)) (k : String) :
    lookupLast (l1 ++ l2) k = (lookupLast l2 k).or (lookupLast l1 k) := by
  induction l1 with
  | nil =>
    simp only [List.nil_append, lookupLast]
    cases lookupLast l2 k <;> simp [Option.or]
  | cons e rest ih =>
    simp only [List.cons_append, lookupLast, ih]
    cases h2 : lookupLast l2 k <;> cases hr : lookupLast rest k <;>
      simp [Option.or, h2, hr, ih]

theorem lookupLast_mem {α : Type} {l : List (String × α)} {k : String} {v : α}
    (h : lookupLast l k = some v) : (k, v) ∈ l := by
  induction l with
  | nil => simp [lookupLast] at h
  | cons e rest ih =>
    simp only [lookupLast] at h
    cases hr : lookupLast rest k with
    | some w =>
      rw [hr] at h
      cases h
      exact List.mem_cons_of_mem _ (ih hr)
    | none =>
      rw [hr] at h
      by_cases he : e.1 = k
      · simp only [he, if_pos rfl] at h
        cases h
        rcases e with ⟨k1, v1⟩
        simp only at he
        subst he
        exact List.mem_cons_self _ _
      · simp [he] at h

theorem lookupLast_isSome_of_mem {α : Type} {l : List (String × α)} {k : String} {v : α}
    (h : (k, v) ∈ l) : ∃ w, lookupLast l k = some w := by
  induction l with
  | nil => simp at h
  | cons e rest ih =>
    rcases List.mem_cons.mp h with he | hr
    · cases hr : lookupLast rest k with
      | some w => exact ⟨w, by simp [lookupLast, hr]⟩
      | none =>
        refine ⟨v, ?_⟩
        simp [lookupLast, hr, ← he]
    · rcases ih hr with ⟨w, hw⟩
      exact ⟨w, by simp [lookupLast, hw]⟩

theorem mem_concatMap {α β : Type} {f : α → List β} {l : List α} {x : β} :
    x ∈ concatMap f l ↔ ∃ a ∈ l, x ∈ f a := by
  induction l with
  | nil => simp [concatMap]
  | cons a as ih => simp [concatMap, ih]

theorem mem_addSet {l : List String} {x y : String} :
    x ∈ addSet l y ↔ x ∈ l ∨ x = y := by
  unfold addSet
  by_cases hy : y ∈ l
  · simp only [if_pos hy]
    constructor
    · exact Or.inl
    · rintro (h | rfl)
      · exact h
      · exact hy
  · simp [if_neg hy]

theorem subset_addSet (l : List String) (y : String) : l ⊆ addSet l y := by
  intro x hx
  exact mem_addSet.mpr (Or.inl hx)

theorem mem_addSet_self (l : List String) (y : String) : y ∈ addSet l y :=
  mem_addSet.mpr (Or.inr rfl)

theorem length_modifyAt {α : Type} (f : α → α) :
    ∀ (i : Nat) (l : List α), (modifyAt f i l).length = l.length := by
  intro i l
  induction l generalizing i with
  | nil => simp [modifyAt]
  | cons a as ih =>
    cases i with
    | zero => simp [modifyAt]
    | succ n => simp [modifyAt, ih]

theorem getElem?_modifyAt {α : Type} (f : α → α) :
    ∀ (i j : Nat) (l : List α),
      (modifyAt f i l)[j]? = if i = j then (l[j]?).map f else l[j]? := by
  intro i j l
  induction l generalizing i j with
  | nil => simp [modifyAt]
  | cons a as ih =>
    cases i with
    | zero =>
      cases j with
      | zero => simp [modifyAt]
      | succ m => simp [modifyAt]
    | succ n =>
      cases j with
      | zero => simp [modifyAt]
      | succ m =>
        simp only [modifyAt, List.getElem?_cons_succ, ih, Nat.succ_eq_add_one]
        by_cases h : n = m
        · simp [h]
        · simp [h, fun hc => h (Nat.succ_injective hc)]

theorem foldl_preserves {α β : Type} {P : α → Prop} {f : α → β → α} {l : List β}
    {init : α} (h0 : P init) (hstep : ∀ s b, P s → b ∈ l → P (f s b)) :
    P (l.foldl f init) := by
  induction l generalizing init with
  | nil => exact h0
  | cons a as ih =>
    exact ih (hstep init a h0 (by simp))
      (fun s b hs hb => hstep s b hs (List.mem_cons_of_mem _ hb))

/-- Two bindings sharing a key in a key-Nodup binding list carry the same
value. -/
theorem key_inj {α : Type} {l : List (String × α)} {p : String} {a b : α}
    (hnd : (l.map Prod.fst).Nodup) (ha : (p, a) ∈ l) (hb : (p, b) ∈ l) : a = b := by
  induction l with
  | nil => simp at ha
  | cons e rest ih =>
    rw [List.map_cons, List.nodup_cons] at hnd
    rcases List.mem_cons.mp ha with rfl | ha2
    · rcases List.mem_cons.mp hb with he | hb2
      · cases he
        rfl
      · exact absurd (List.mem_map_of_mem Prod.fst hb2) (by simpa using hnd.1)
    · rcases List.mem_cons.mp hb with rfl | hb2
      · exact absurd (List.mem_map_of_mem Prod.fst ha2) (by simpa using hnd.1)
      · exact ih hnd.2 ha2 hb2

/-! ## Lemmas about StateManager.update -/

theorem moduleHashesAux_eq (l : List (String × String × String))
    (acc : String → List String) (m : String) :
    moduleHashesAux acc l m =
      acc m ++ (l.filter (fun e => decide (e.2.2 = m))).map (fun e => e.2.1) := by
  induction l generalizing acc with
  | nil => simp [moduleHashesAux]
  | cons e rest ih =>
    rcases e with ⟨p, h, mm⟩
    simp only [moduleHashesAux]
    rw [ih]
    by_cases hm : mm = m
    · subst hm
      simp
    · have hm2 : ¬ m = mm := fun hc => hm hc.symm
      simp [hm, hm2]

theorem moduleHashes_eq (l : List (String × String × String)) (m : String) :
    moduleHashes l m =
      (l.filter (fun e => decide (e.2.2 = m))).map (fun e => e.2.1) := by
  simp [moduleHashes, moduleHashesAux_eq]

theorem updateFilesMap_eq :
    ∀ (l : List (String × String × String)) (fs : String → Option FileState)
      (p : String),
      updateFilesMap fs l p =
        match l.reverse.find? (fun e => e.1 == p) with
        | some e => some ⟨e.2.1, e.2.2⟩
        | none => fs p := by
  intro l
  induction l with
  | nil => intro fs p; simp [updateFilesMap]
  | cons e rest ih =>
    intro fs p
    rcases e with ⟨q, h, m⟩
    simp only [updateFilesMap, List.reverse_cons, List.find?_append]
    rw [ih]
    cases hf : rest.reverse.find? (fun e => e.1 == p) with
    | some w => simp [Option.or]
    | none =>
      simp only [Option.or]
      by_cases hqp : q = p
      · subst hqp
        simp [List.find?]
      · have hp : ¬ p = q := fun hc => hqp hc.symm
        have hb : (q == p) = false := by simp [hqp]
        simp [List.find?, hb, hp]

/-- The touched-module half of `update`: a module named in the batch is
stamped with the supplied timestamp and the batch hashes grouped for it, in
batch order. -/
theorem update_modules_touched (st : State) (now : String)
    (batch : List (String × String × String)) (m : String)
    (hm : m ∈ batchModules batch) :
    (StateManager.update st now batch).modules m =
      some ⟨now, (batch.filter (fun e => decide (e.2.2 = m))).map (fun e => e.2.1)⟩ := by
  show (if (batchModules batch).contains m = true
        then some ⟨now, moduleHashes batch m⟩ else st.modules m) = _
  have hc : (batchModules batch).contains m = true := by simpa using hm
  rw [if_pos hc, moduleHashes_eq]

/-- The untouched-module half of `update`. -/
theorem update_modules_untouched (st : State) (now : String)
    (batch : List (String × String × String)) (m : String)
    (hm : m ∉ batchModules batch) :
    (StateManager.update st now batch).modules m = st.modules m := by
  show (if (batchModules batch).contains m = true
        then some ⟨now, moduleHashes batch m⟩ else st.modules m) = _
  have hc : ¬ (batchModules batch).contains m = true := by simpa using hm
  rw [if_neg hc]

/-- File entries with no batch entry are untouched by `update`. -/
theorem update_files_untouched (st : State) (now : String)
    (batch : List (String × String × String)) (p : String)
    (hp : p ∉ batch.map (fun e => e.1)) :
    (StateManager.update st now batch).files p = st.files p := by
  show updateFilesMap st.files batch p = st.files p
  rw [updateFilesMap_eq]
  have hnone : batch.reverse.find? (fun e => e.1 == p) = none := by
    rw [List.find?_eq_none]
    intro x hx
    simp only [beq_iff_eq]
    intro hxe
    exact hp (List.mem_map.mpr ⟨x, List.mem_reverse.mp hx, hxe⟩)
  rw [hnone]

/-- File entries named in the batch are upserted to the value of the last
batch entry for that path. -/
theorem update_files_upsert (st : State) (now : String)
    (batch : List (String × String × String)) (p : String)
    (e : String × String × String)
    (hfind : batch.reverse.find? (fun x => x.1 == p) = some e) :
    (StateManager.update st now batch).files p = some ⟨e.2.1, e.2.2⟩ := by
  show updateFilesMap st.files batch p = some ⟨e.2.1, e.2.2⟩
  rw [updateFilesMap_eq, hfind]

/-- In a batch whose paths are distinct, the (unique) entry for a path is
what the reversed-list search finds. -/
theorem find?_batch {batch : List (String × String × String)}
    (hnd : (batch.map (fun e => e.1)).Nodup) {p h m : String}
    (hmem : (p, h, m) ∈ batch) :
    batch.reverse.find? (fun x => x.1 == p) = some (p, h, m) := by
  induction batch with
  | nil => simp at hmem
  | cons e rest ih =>
    rw [List.map_cons, List.nodup_cons] at hnd
    rw [List.reverse_cons, List.find?_append]
    rcases List.mem_cons.mp hmem with rfl | hmem2
    · have hnone : rest.reverse.find? (fun x => x.1 == p) = none := by
        rw [List.find?_eq_none]
        intro x hx
        simp only [beq_iff_eq]
        intro hxe
        have hpm : p ∈ rest.map (fun e => e.1) := by
          rw [← hxe]
          exact List.mem_map_of_mem _ (List.mem_reverse.mp hx)
        exact hnd.1 hpm
      rw [hnone]
      simp [Option.or, List.find?]
    · rw [ih hnd.2 hmem2]
      simp [Option.or]

/-! ## Claims C1, C2, C7, C10 -/

/-- C1: counterexample.  `update` stores the member hashes in batch order,
not sorted: the batch `[("a","h2","M"), ("b","h1","M")]` leaves
`source_hashes = ["h2","h1"]` while the reversed batch leaves
`["h1","h2"]`, so the stored list is not independent of the processing
order (and at most one of the two can be the sorted list). -/
theorem claim1_counterexample :
    (StateManager.update {} "t" [("a", "h2", "M"), ("b", "h1", "M")]).modules "M" =
      some ⟨"t", ["h2", "h1"]⟩ ∧
    (StateManager.update {} "t" [("b", "h1", "M"), ("a", "h2", "M")]).modules "M" =
      some ⟨"t", ["h1", "h2"]⟩ ∧
    (["h2", "h1"] : List String) ≠ ["h1", "h2"] := by
  refine ⟨?_, ?_, ?_⟩ <;> decide

/-- C1 (amended): after `update`, every module touched by the batch is
stamped with the supplied fresh timestamp and with the list of its batch
hashes in batch order — not sorted, so the stored record depends on the
processing order of the batch. -/
theorem claim1_update_stamps (st : State) (now : String)
    (batch : List (String × String × String)) (m : String)
    (hm : m ∈ batchModules batch) :
    (StateManager.update st now batch).modules m =
      some ⟨now, (batch.filter (fun e => decide (e.2.2 = m))).map (fun e => e.2.1)⟩ ∧
    (StateManager.update st now batch).last_run = some now :=
  ⟨update_modules_touched st now batch m hm, rfl⟩

/-- C1 witness: the amended statement evaluated on a concrete batch. -/
theorem claim1_witness :
    (StateManager.update {} "t" [("a", "h2", "M"), ("b", "h1", "M")]).modules "M" =
      some ⟨"t", ["h2", "h1"]⟩ ∧
    (StateManager.update {} "t" [("a", "h2", "M"), ("b", "h1", "M")]).last_run =
      some "t" := by
  have h := claim1_update_stamps {} "t" [("a", "h2", "M"), ("b", "h1", "M")] "M"
    (by decide)
  exact h

/-- C2: counterexample.  A well-formed JSON document whose top level is not
an object (here the empty array) makes `_load` raise `AttributeError` when
it calls `data.get`, so `load` does not return normally on every well-formed
JSON document. -/
theorem claim2_counterexample :
    StateManager.load (.parsed (.arr [])) = .error .attributeError := rfl

/-- C2 (amended): a missing state file and an unparsable state file both
yield the empty default state (`version=1`, `last_run=None`, empty `files`
and `modules`) without raising; well-formed JSON of an unexpected shape can
still raise, as the counterexample shows. -/
theorem claim2_load_default :
    StateManager.load .missing = .ok ⟨.num 1, .null, [], []⟩ ∧
    StateManager.load .unparsable = .ok ⟨.num 1, .null, [], []⟩ :=
  ⟨rfl, rfl⟩

/-- C10: `update` replaces each touched module's record wholesale — fresh
timestamp and exactly the hashes appearing in the batch for that module,
previously stored hashes dropped — while modules not named in the batch and
file entries for paths not in the batch are unchanged, and file entries in
the batch are upserted to their last batch value. -/
theorem claim10_update_frame (st : State) (now : String)
    (batch : List (String × String × String)) :
    (∀ m, m ∈ batchModules batch →
      (StateManager.update st now batch).modules m =
        some ⟨now, (batch.filter (fun e => decide (e.2.2 = m))).map (fun e => e.2.1)⟩) ∧
    (∀ m, m ∉ batchModules batch →
      (StateManager.update st now batch).modules m = st.modules m) ∧
    (∀ p, p ∉ batch.map (fun e => e.1) →
      (StateManager.update st now batch).files p = st.files p) ∧
    (∀ p e, batch.reverse.find? (fun x => x.1 == p) = some e →
      (StateManager.update st now batch).files p = some ⟨e.2.1, e.2.2⟩) :=
  ⟨fun m hm => update_modules_touched st now batch m hm,
   fun m hm => update_modules_untouched st now batch m hm,
   fun p hp => update_files_untouched st now batch p hp,
   fun p e he => update_files_upsert st now batch p e he⟩

/-- C10 witness: the frame conditions evaluated on a concrete batch and
state. -/
theorem claim10_witness :
    (StateManager.update {} "t" [("a", "h1", "M")]).modules "M" =
      some ⟨"t", ["h1"]⟩ ∧
    (StateManager.update {} "t" [("a", "h1", "M")]).modules "N" = none ∧
    (StateManager.update {} "t" [("a", "h1", "M")]).files "b" = none ∧
    (StateManager.update {} "t" [("a", "h1", "M")]).files "a" =
      some ⟨"h1", "M"⟩ := by
  have h := claim10_update_frame {} "t" [("a", "h1", "M")]
  exact ⟨h.1 "M" (by decide), h.2.1 "N" (by decide), h.2.2.1 "b" (by decide),
    h.2.2.2 "a" ("a", "h1", "M") (by decide)⟩

/-- C7: change detection is idempotent across a persisted run — if the
changed set is written back with `update` (under any module assignment) and
the walk produces byte-identical content (the same `(path, digest)` list,
with distinct paths), the second changed set is empty. -/
theorem claim7_idempotent (st : State) (now : String)
    (allFiles : List (String × String)) (moduleOf : String → String)
    (hnd : (allFiles.map (fun e => e.1)).Nodup) :
    ChangeDetector.get_changed_files
      (StateManager.update st now
        ((ChangeDetector.get_changed_files st allFiles).map
          (fun e => (e.1, e.2, moduleOf e.1))))
      allFiles = [] := by
  unfold ChangeDetector.get_changed_files
  rw [List.filter_eq_nil_iff]
  rintro ⟨p, h⟩ he
  simp only [decide_eq_true_eq, not_not, Decidable.not_not]
  set changed := (allFiles.filter
    (fun e => decide (StateManager.get_file_hash st e.1 ≠ some e.2))) with hch
  set batch := changed.map (fun e => (e.1, e.2, moduleOf e.1)) with hb
  by_cases hc : StateManager.get_file_hash st p = some h
  · have hpk : p ∉ batch.map (fun e => e.1) := by
      intro hmem
      rw [hb, List.map_map] at hmem
      rcases List.mem_map.mp hmem with ⟨⟨p2, h2⟩, hmem2, hpe⟩
      simp only [Function.comp] at hpe
      subst hpe
      have hsub : (p2, h2) ∈ allFiles := (List.mem_filter.mp hmem2).1
      have hcond := (List.mem_filter.mp hmem2).2
      simp only [decide_eq_true_eq] at hcond
      have : h2 = h := key_inj hnd hsub he
      subst this
      exact hcond hc
    have hfs := update_files_untouched st now batch p hpk
    unfold StateManager.get_file_hash
    unfold StateManager.get_file_hash at hc
    rw [hfs]
    exact hc
  · have hmem : (p, h) ∈ changed := by
      rw [hch]
      exact List.mem_filter.mpr ⟨he, by simpa using hc⟩
    have hbmem : (p, h, moduleOf p) ∈ batch := by
      rw [hb]
      exact List.mem_map.mpr ⟨(p, h), hmem, rfl⟩
    have hbnd : (batch.map (fun e => e.1)).Nodup := by
      rw [hb, List.map_map]
      have : changed.Sublist allFiles := List.filter_sublist allFiles
      have hsub2 : (changed.map (fun e => e.1)).Sublist (allFiles.map (fun e => e.1)) :=
        List.Sublist.map _ this
      exact (hnd.sublist hsub2)
    have hfind := find?_batch hbnd hbmem
    have hfs := update_files_upsert st now batch p (p, h, moduleOf p) hfind
    unfold StateManager.get_file_hash
    rw [hfs]

/-- C7 witness: the idempotence statement evaluated on a concrete state and
walk. -/
theorem claim7_witness :
    ChangeDetector.get_changed_files
      (StateManager.update {} "t"
        ((ChangeDetector.get_changed_files {} [("a.cpp", "h1")]).map
          (fun e => (e.1, e.2, "M"))))
      [("a.cpp", "h1")] = [] :=
  claim7_idempotent {} "t" [("a.cpp", "h1")] (fun _ => "M") (by decide)

/-! ## Claim C6: the directory grouping strategy -/

/-- C6: under the `directory` strategy with depth `d`, a path of more than
`d` segments is named by its first `d` segments; a path of at most `d` but
more than one segment is named by all segments but the filename; a
single-segment path (not caught by the first case) is named `"root"`; and
the depth-2 scenario partitions the three scenario files into `src/parser`
(two files) and `src/codegen` (one file), in first-seen order. -/
theorem claim6_directory_strategy (depth : Nat) (parts : List String) :
    (parts.length > depth →
      ModuleGrouper.getModuleName ⟨⟨"directory", depth⟩⟩ parts =
        joinSlash (parts.take depth)) ∧
    (parts.length ≤ depth → parts.length > 1 →
      ModuleGrouper.getModuleName ⟨⟨"directory", depth⟩⟩ parts =
        joinSlash parts.dropLast) ∧
    (parts.length ≤ depth → parts.length = 1 →
      ModuleGrouper.getModuleName ⟨⟨"directory", depth⟩⟩ parts = "root") ∧
    ModuleGrouper.group_files ⟨⟨"directory", 2⟩⟩ ["r"]
      [(["r", "src", "parser", "a.cpp"], "h1"),
       (["r", "src", "parser", "b.cpp"], "h2"),
       (["r", "src", "codegen", "c.cpp"], "h3")] =
      [{ name := "src/parser", path := ["r", "src", "parser"],
         files := [(["r", "src", "parser", "a.cpp"], "h1"),
                   (["r", "src", "parser", "b.cpp"], "h2")] },
       { name := "src/codegen", path := ["r", "src", "codegen"],
         files := [(["r", "src", "codegen", "c.cpp"], "h3")] }] := by
  refine ⟨?_, ?_, ?_, ?_⟩
  · intro h
    simp [ModuleGrouper.getModuleName, h]
  · intro h1 h2
    have hnot : ¬ parts.length > depth := Nat.not_lt.mpr h1
    simp [ModuleGrouper.getModuleName, hnot, h2]
  · intro h1 h2
    have hnot : ¬ parts.length > depth := Nat.not_lt.mpr h1
    have hnot2 : ¬ parts.length > 1 := by omega
    simp [ModuleGrouper.getModuleName, hnot, hnot2]
  · decide

/-- C6 witness: the three cases of the directory strategy evaluated on
concrete paths. -/
theorem claim6_witness :
    ModuleGrouper.getModuleName ⟨⟨"directory", 2⟩⟩ ["src", "parser", "a.cpp"] =
      "src/parser" ∧
    ModuleGrouper.getModuleName ⟨⟨"directory", 5⟩⟩ ["src", "a.cpp"] = "src" ∧
    ModuleGrouper.getModuleName ⟨⟨"directory", 2⟩⟩ ["a.cpp"] = "root" := by
  refine ⟨?_, ?_, ?_⟩
  · rw [(claim6_directory_strategy 2 ["src", "parser", "a.cpp"]).1 (by decide)]
    decide
  · rw [(claim6_directory_strategy 5 ["src", "a.cpp"]).2.1 (by decide) (by decide)]
    decide
  · exact (claim6_directory_strategy 2 ["a.cpp"]).2.2.1 (by decide) (by decide)

/-! ## Claim C8: top-level function extraction -/

theorem hasClassAncestor_eq_false_iff (anc : List String) :
    hasClassAncestor anc = false ↔
      ∀ a ∈ anc, ¬(a = "class_specifier" ∨ a = "struct_specifier") := by
  induction anc with
  | nil => simp [hasClassAncestor]
  | cons ty rest ih =>
    by_cases h : ty = "class_specifier" ∨ ty = "struct_specifier"
    · constructor
      · intro hfalse
        rw [hasClassAncestor, if_pos h] at hfalse
        exact absurd hfalse (by simp)
      · intro hall
        exact absurd h (hall ty (by simp))
    · rw [hasClassAncestor, if_neg h]
      constructor
      · intro hfalse a ha
        rcases List.mem_cons.mp ha with rfl | ha2
        · exact h
        · exact (ih.mp hfalse) a ha2
      · intro hall
        exact ih.mpr (fun a ha => hall a (List.mem_cons_of_mem _ ha))

/-- C8 (amended): a `FunctionInfo` is recorded among the top-level functions
exactly when it comes from a `function_definition` occurrence whose ancestor
chain contains no `class_specifier`/`struct_specifier` *and* from which
`_extract_function_info` extracts a name; in particular a definition nested
inside a type node is never recorded, but a clean ancestor chain alone does
not guarantee recording. -/
theorem claim8_recorded_iff (root : Node) (fi : FunctionInfo) :
    fi ∈ CppParser.extractFunctions root ↔
      ∃ p ∈ findNodesAnc "function_definition" [] root,
        (∀ a ∈ p.2, ¬(a = "class_specifier" ∨ a = "struct_specifier")) ∧
        extractFunctionInfo p.1 = some fi := by
  unfold CppParser.extractFunctions
  rw [List.mem_filterMap]
  constructor
  · rintro ⟨p, hp, hf⟩
    by_cases hc : hasClassAncestor p.2 = true
    · rw [if_pos hc] at hf
      exact absurd hf (by simp)
    · rw [if_neg hc] at hf
      exact ⟨p, hp,
        (hasClassAncestor_eq_false_iff p.2).mp (Bool.not_eq_true _ ▸ hc), hf⟩
  · rintro ⟨p, hp, hall, hsome⟩
    refine ⟨p, hp, ?_⟩
    have hc : hasClassAncestor p.2 = false := (hasClassAncestor_eq_false_iff p.2).mpr hall
    rw [if_neg (by simp [hc]), hsome]

/-- The fused declarator search agrees with
`child_by_field_name("declarator")` followed by the recursive call. -/
theorem declChildSearch_eq (cs : List (Option String × Node)) :
    declChildSearch cs =
      match cs.find? (fun c => c.1 == some "declarator") with
      | some c => some (findFunctionName c.2)
      | none => none := by
  induction cs with
  | nil => rfl
  | cons c rest ih =>
    by_cases h : c.1 = some "declarator"
    · simp [declChildSearch, List.find?, h]
    · have hb : (c.1 == some "declarator") = false := by simpa using h
      simp [declChildSearch, List.find?, hb, ih]

/-- C8: counterexample.  The free `operator+` definition sits at the top
level with a class/struct-free ancestor chain, yet nothing is recorded,
because `_find_function_name` finds no identifier in an `operator_name`
declarator — so "recorded exactly when the parent walk meets no type node"
fails in the only-if direction. -/
theorem claim8_counterexample :
    c8fnDef.type = "function_definition" ∧
    findNodesAnc "function_definition" [] c8tree = [(c8fnDef, ["translation_unit"])] ∧
    hasClassAncestor ["translation_unit"] = false ∧
    CppParser.extractFunctions c8tree = [] :=
  ⟨rfl, rfl, rfl, rfl⟩

/-! ## Claims C5 and C9: import resolution and the combined index -/

/-- Every value stored in the resolver's combined index is the name of one
of the resolver's modules. -/
theorem file_to_module_val {root : List String} {mods : List Module}
    {k v : String}
    (h : (k, v) ∈ (DependencyResolver.init root mods).file_to_module) :
    v ∈ mods.map (fun m => m.name) := by
  unfold DependencyResolver.init at h
  simp only at h
  rcases mem_concatMap.mp h with ⟨m, hm, h2⟩
  rcases mem_concatMap.mp h2 with ⟨pf, hpf, h3⟩
  rcases List.mem_cons.mp h3 with heq | h4
  · cases heq
    exact List.mem_map_of_mem _ hm
  · rcases List.mem_cons.mp h4 with heq | h5
    · cases heq
      exact List.mem_map_of_mem _ hm
    · simp at h5

/-- A successful `resolve_import` always returns the name of one of the
resolver's modules. -/
theorem resolve_import_val {root : List String} {mods : List Module}
    {file : List String} {name v : String}
    (h : (DependencyResolver.init root mods).resolve_import file name = some v) :
    v ∈ mods.map (fun m => m.name) := by
  unfold DependencyResolver.resolve_import at h
  split at h
  · next m heq =>
      cases h
      exact file_to_module_val (lookupLast_mem heq)
  · next heq =>
      unfold DependencyResolver.relativeLookup at h
      split at h
      · exact file_to_module_val (lookupLast_mem h)
      · exact Option.noConfusion h

/-- C5 (amended): `resolve_import` first performs an exact lookup of
the import text in the *combined* index (which holds both bare filenames and
root-relative paths, not bare filenames only); only if that misses does it
fall to the relative-resolution step; either success returns an owning
module's name, and a double miss is `none`, never an error. -/
theorem claim5_resolve_import (root : List String) (mods : List Module)
    (file : List String) (name : String) :
    (∀ v, lookupLast (DependencyResolver.init root mods).file_to_module name = some v →
      (DependencyResolver.init root mods).resolve_import file name = some v) ∧
    (lookupLast (DependencyResolver.init root mods).file_to_module name = none →
      (DependencyResolver.init root mods).resolve_import file name =
        (DependencyResolver.init root mods).relativeLookup file name) ∧
    (∀ v, (DependencyResolver.init root mods).resolve_import file name = some v →
      v ∈ mods.map (fun m => m.name)) := by
  refine ⟨?_, ?_, fun v h => resolve_import_val h⟩
  · intro v hv
    unfold DependencyResolver.resolve_import
    rw [hv]
  · intro hn
    unfold DependencyResolver.resolve_import
    rw [hn]

/-- C5: counterexample.  The import text `"src/a.h"` equals a root-relative
path, so the source resolves it in its *first* lookup step, while the
spec-described algorithm (exact bare-filename lookup first, then relative
resolution from the importing file's directory) fails on both of its steps:
the code and the spec's algorithm disagree at this input. -/
theorem claim5_counterexample :
    (DependencyResolver.init ["r"] c5mods).resolve_import
      ["r", "src", "sub", "b.cpp"] "src/a.h" = some "M" ∧
    resolveImportSpec ["r"] c5mods ["r", "src", "sub", "b.cpp"] "src/a.h" = none :=
  ⟨rfl, rfl⟩

/-- C5 witness: both halves of the amended statement evaluated on concrete
inputs. -/
theorem claim5_witness :
    (DependencyResolver.init ["r"] c5mods).resolve_import ["r", "x.cpp"] "a.h" =
      some "M" ∧
    (DependencyResolver.init ["r"] c5mods).resolve_import ["r", "x.cpp"] "nope.h" =
      (DependencyResolver.init ["r"] c5mods).relativeLookup ["r", "x.cpp"] "nope.h" := by
  refine ⟨?_, ?_⟩
  · exact (claim5_resolve_import ["r"] c5mods ["r", "x.cpp"] "a.h").1 "M" (by decide)
  · exact (claim5_resolve_import ["r"] c5mods ["r", "x.cpp"] "nope.h").2.1 (by decide)

theorem concatMap_append {α β : Type} (f : α → List β) (l1 l2 : List α) :
    concatMap f (l1 ++ l2) = concatMap f l1 ++ concatMap f l2 := by
  induction l1 with
  | nil => rfl
  | cons a as ih => simp [concatMap, ih]

theorem concatMap_concatMap {α β γ : Type} (g : β → List γ) (f : α → List β)
    (l : List α) :
    concatMap g (concatMap f l) = concatMap (fun a => concatMap g (f a)) l := by
  induction l with
  | nil => rfl
  | cons a as ih => simp [concatMap, concatMap_append, ih]

theorem concatMap_map {α β γ : Type} (g : β → List γ) (f : α → β) (l : List α) :
    concatMap g (l.map f) = concatMap (fun a => g (f a)) l := by
  induction l with
  | nil => rfl
  | cons a as ih => simp [concatMap, ih]

/-- The combined index is the per-registration pair of bindings
(root-relative string first, bare filename second), flattened in
registration order. -/
theorem file_to_module_eq_registrations (root : List String) (mods : List Module) :
    (DependencyResolver.init root mods).file_to_module =
      concatMap (fun r =>
        [(relString (r.1.drop root.length), r.2), (lastD r.1, r.2)])
        (registrations mods) := by
  unfold DependencyResolver.init registrations
  simp only [concatMap_concatMap, concatMap_map]

/-- Looking a key up in the flattened registration bindings: provided a
rel-path binding can only collide with the key when the bare filename does
too (true of any key and file set free of `"/"`-bearing segments), the hit
is the last registration whose bare filename is the key. -/
theorem lookup_registrations (root : List String)
    (regs : List (List String × String)) (f : String)
    (hcol : ∀ e ∈ regs, relString (e.1.drop root.length) = f → lastD e.1 = f) :
    lookupLast
      (concatMap (fun r =>
        [(relString (r.1.drop root.length), r.2), (lastD r.1, r.2)]) regs) f =
      (regs.reverse.find? (fun e => lastD e.1 == f)).map (fun e => e.2) := by
  induction regs with
  | nil => rfl
  | cons e rest ih =>
    have hcol2 : ∀ x ∈ rest, relString (x.1.drop root.length) = f → lastD x.1 = f :=
      fun x hx => hcol x (List.mem_cons_of_mem _ hx)
    show lookupLast
        ([(relString (e.1.drop root.length), e.2), (lastD e.1, e.2)] ++
          concatMap _ rest) f = _
    rw [lookupLast_append, ih hcol2, List.reverse_cons, List.find?_append]
    cases hfind : rest.reverse.find? (fun x => lastD x.1 == f) with
    | some w => simp [Option.or]
    | none =>
      simp only [Option.map_none, Option.none_or]
      by_cases hbare : lastD e.1 = f
      · simp [lookupLast, List.find?, hbare]
      · have hrel : ¬ relString (e.1.drop root.length) = f :=
          fun hc => hbare (hcol e (List.mem_cons_self _ _) hc)
        have hb : (lastD e.1 == f) = false := by simpa using hbare
        simp [lookupLast, List.find?, hbare, hrel, hb]

/-- C9: the resolver's index is one combined map over both key shapes; a
bare filename shared by files of several modules resolves to the module of
the last-registered such file, and an import text equal to a member file's
root-relative path already succeeds in the first lookup step of
`resolve_import`. -/
theorem claim9_combined_index (root : List String) (mods : List Module)
    (f : String) (e : List String × String)
    (hcol : ∀ r ∈ registrations mods,
      relString (r.1.drop root.length) = f → lastD r.1 = f)
    (hlast : (registrations mods).reverse.find? (fun r => lastD r.1 == f) = some e) :
    lookupLast (DependencyResolver.init root mods).file_to_module f = some e.2 ∧
    (∀ m ∈ mods, ∀ pf ∈ m.files, ∃ v,
      lookupLast (DependencyResolver.init root mods).file_to_module
        (relString (pf.1.drop root.length)) = some v ∧
      ∀ file, (DependencyResolver.init root mods).resolve_import file
        (relString (pf.1.drop root.length)) = some v) := by
  constructor
  · rw [file_to_module_eq_registrations, lookup_registrations root _ f hcol, hlast]
    rfl
  · intro m hm pf hpf
    have hkey : (relString (pf.1.drop root.length), m.name) ∈
        (DependencyResolver.init root mods).file_to_module := by
      unfold DependencyResolver.init
      simp only
      refine mem_concatMap.mpr ⟨m, hm, mem_concatMap.mpr ⟨pf, hpf, ?_⟩⟩
      simp
    rcases lookupLast_isSome_of_mem hkey with ⟨v, hv⟩
    refine ⟨v, hv, fun file => ?_⟩
    unfold DependencyResolver.resolve_import
    rw [hv]

/-- C9 witness: with two modules owning an `a.h`, the bare name resolves to
the later-registered module, and a rel-path import text already hits the
first lookup step. -/
theorem claim9_witness :
    lookupLast (DependencyResolver.init ["r"] c9mods).file_to_module "a.h" =
      some "M2" ∧
    ∃ v, lookupLast (DependencyResolver.init ["r"] c9mods).file_to_module
        "src/a.h" = some v ∧
      (DependencyResolver.init ["r"] c9mods).resolve_import ["r", "q.cpp"]
        "src/a.h" = some v := by
  have h := claim9_combined_index ["r"] c9mods "a.h" (["r", "lib", "a.h"], "M2")
    (by decide) (by decide)
  refine ⟨h.1, ?_⟩
  have h2 := h.2
    { name := "M1", path := ["r", "src"], files := [(["r", "src", "a.h"], "h1")] }
    (by decide) (["r", "src", "a.h"], "h1") (by decide)
  rcases h2 with ⟨v, hv1, hv2⟩
  exact ⟨v, hv1, hv2 ["r", "q.cpp"]⟩

/-! ## Claims C3 and C4: the dependency graph walk -/

theorem addDependency_name (t : String) (m : Module) :
    (addDependency t m).name = m.name := rfl

theorem addDependent_name (s : String) (m : Module) :
    (addDependent s m).name = m.name := rfl

theorem length_updateLastNamed (t : String) (f : Module → Module) :
    ∀ l : List Module, (updateLastNamed t f l).length = l.length := by
  intro l
  induction l with
  | nil => rfl
  | cons m rest ih =>
    by_cases h1 : rest.any (fun x => x.name == t) = true
    · simp [updateLastNamed, h1, ih]
    · by_cases h2 : m.name = t
      · simp [updateLastNamed, h1, h2]
      · simp [updateLastNamed, h1, h2, ih]

theorem map_name_updateLastNamed (t : String) (f : Module → Module)
    (hf : ∀ m, (f m).name = m.name) :
    ∀ l : List Module,
      (updateLastNamed t f l).map (fun m => m.name) = l.map (fun m => m.name) := by
  intro l
  induction l with
  | nil => rfl
  | cons m rest ih =>
    by_cases h1 : rest.any (fun x => x.name == t) = true
    · simp [updateLastNamed, h1, ih]
    · by_cases h2 : m.name = t
      · simp [updateLastNamed, h1, h2, hf m]
      · simp [updateLastNamed, h1, h2, ih]

theorem map_name_modifyAt (f : Module → Module)
    (hf : ∀ m, (f m).name = m.name) :
    ∀ (i : Nat) (l : List Module),
      (modifyAt f i l).map (fun m => m.name) = l.map (fun m => m.name) := by
  intro i l
  induction l generalizing i with
  | nil => cases i <;> rfl
  | cons m rest ih =>
    cases i with
    | zero => simp [modifyAt, hf m]
    | succ n => simp [modifyAt, ih n]

theorem map_if_id (t : String) (f : Module → Module) {l : List Module}
    (h : ∀ x ∈ l, ¬ x.name = t) :
    l.map (fun m => if m.name = t then f m else m) = l := by
  induction l with
  | nil => rfl
  | cons m rest ih =>
    rw [List.map_cons, if_neg (h m (List.mem_cons_self _ _)),
      ih (fun x hx => h x (List.mem_cons_of_mem _ hx))]

theorem updateLastNamed_eq_map (t : String) (f : Module → Module)
    {l : List Module} (hnd : (l.map (fun m => m.name)).Nodup) :
    updateLastNamed t f l = l.map (fun m => if m.name = t then f m else m) := by
  induction l with
  | nil => rfl
  | cons m rest ih =>
    rw [List.map_cons, List.nodup_cons] at hnd
    by_cases h1 : rest.any (fun x => x.name == t) = true
    · have ht : ∃ x ∈ rest, x.name = t := by simpa using h1
      have hm : ¬ m.name = t := by
        rcases ht with ⟨x, hx, hxt⟩
        intro hc
        refine hnd.1 ?_
        rw [hc, ← hxt]
        exact List.mem_map_of_mem _ hx
      simp [updateLastNamed, h1, hm, ih hnd.2]
    · have hnone : ∀ x ∈ rest, ¬ x.name = t := by simpa using h1
      by_cases h2 : m.name = t
      · simp [updateLastNamed, h1, h2, map_if_id t f hnone]
      · simp [updateLastNamed, h1, h2, ih hnd.2]

/-- Under distinct names, equal names force equal positions. -/
theorem name_eq_iff_idx {ms : List Module}
    (hnd : (ms.map (fun m => m.name)).Nodup) {j k : Nat}
    (hj : j < ms.length) (hk : k < ms.length) :
    ms[j].name = ms[k].name ↔ j = k := by
  have hjm : j < (ms.map (fun m => m.name)).length := by simpa using hj
  have hkm : k < (ms.map (fun m => m.name)).length := by simpa using hk
  have h2 := @List.Nodup.getElem_inj_iff _ (ms.map (fun m => m.name)) hnd j hjm k hkm
  rw [List.getElem_map, List.getElem_map] at h2
  exact h2

/-- Transport of a position's name along an equality of name lists. -/
theorem names_getElem_eq {ms ms' : List Module}
    (h : ms.map (fun m => m.name) = ms'.map (fun m => m.name))
    {j : Nat} (hj : j < ms.length) (hj' : j < ms'.length) :
    ms[j].name = ms'[j].name := by
  have h2 := congrArg (fun l => l[j]?) h
  simp only [List.getElem?_map, List.getElem?_eq_getElem hj,
    List.getElem?_eq_getElem hj', Option.map_some] at h2
  exact Option.some.inj h2

/-- Lengths agree when name lists agree. -/
theorem names_length_eq {ms ms' : List Module}
    (h : ms.map (fun m => m.name) = ms'.map (fun m => m.name)) :
    ms.length = ms'.length := by
  have := congrArg List.length h
  simpa using this

/-- Element-wise description of the edge-adding step
`module_by_name[t].dependents.add(owner)` after `module.dependencies.add(t)`:
position `i` gains `t` among its dependencies, the position named `t` gains
the owner among its dependents, everything else is untouched. -/
theorem edgeStep_getElem (t ownerName : String) (i k : Nat) (ms : List Module)
    (hnd : (ms.map (fun m => m.name)).Nodup)
    (hk : k < ms.length) (hkname : ms[k].name = t) :
    ∀ j (hj : j < ms.length),
      (updateLastNamed t (addDependent ownerName) (modifyAt (addDependency t) i ms))[j]? =
        some { ms[j] with
               dependencies :=
                 if j = i then addSet ms[j].dependencies t else ms[j].dependencies,
               dependents :=
                 if j = k then addSet ms[j].dependents ownerName else ms[j].dependents } := by
  intro j hj
  have hnd1 : ((modifyAt (addDependency t) i ms).map (fun m => m.name)).Nodup := by
    rw [map_name_modifyAt _ (addDependency_name t)]
    exact hnd
  rw [updateLastNamed_eq_map t _ hnd1, List.getElem?_map, getElem?_modifyAt,
    List.getElem?_eq_getElem hj]
  by_cases hji : i = j
  · subst hji
    rw [if_pos rfl, if_pos rfl]
    by_cases hik : i = k
    · subst hik
      rw [if_pos rfl]
      have hnt : ms[i].name = t := hkname
      simp [hnt, addDependency, addDependent]
    · have hnt : ¬ ms[i].name = t := by
        intro hc
        exact hik ((name_eq_iff_idx hnd hj hk).mp (by rw [hc, hkname]))
      rw [if_neg hik]
      simp [hnt, addDependency, addDependent]
  · rw [if_neg hji, if_neg (fun hc => hji hc.symm)]
    by_cases hjk : j = k
    · subst hjk
      rw [if_pos rfl]
      have hnt : ms[j].name = t := hkname
      simp [hnt, addDependent]
    · have hnt : ¬ ms[j].name = t := by
        intro hc
        exact hjk ((name_eq_iff_idx hnd hj hk).mp (by rw [hc, hkname]))
      rw [if_neg hjk]
      simp [hnt]

/-- One `processImport` step keeps the name list, mirror-symmetry and
absence of self-edges intact.  `ownerName` is the name the walk read off
position `i` of the original module list. -/
theorem processImport_pres (root : List String) (mods0 : List Module)
    (hnd : (mods0.map (fun m => m.name)).Nodup)
    (i : Nat) (hi : i < mods0.length) (ownerName : String)
    (howner : ownerName = mods0[i].name)
    (fpath : List String) (imp : ImportInfo) (ms : List Module)
    (hnames : ms.map (fun m => m.name) = mods0.map (fun m => m.name))
    (hsym : GraphSym ms) (hnse : NoSelfEdges ms) :
    (processImport (DependencyResolver.init root mods0)
        (mods0.map (fun m => m.name)) i ownerName fpath ms imp).map (fun m => m.name) =
      mods0.map (fun m => m.name) ∧
    GraphSym (processImport (DependencyResolver.init root mods0)
        (mods0.map (fun m => m.name)) i ownerName fpath ms imp) ∧
    NoSelfEdges (processImport (DependencyResolver.init root mods0)
        (mods0.map (fun m => m.name)) i ownerName fpath ms imp) := by
  unfold processImport
  split
  · exact ⟨hnames, hsym, hnse⟩
  · split
    · exact ⟨hnames, hsym, hnse⟩
    · next t hres =>
      split
      · exact ⟨hnames, hsym, hnse⟩
      · next htne =>
        split
        · next hcont =>
          have hndms : (ms.map (fun m => m.name)).Nodup := by
            rw [hnames]
            exact hnd
          have hlen : ms.length = mods0.length := names_length_eq hnames
          have hiMs : i < ms.length := by omega
          have howner2 : ms[i].name = ownerName := by
            rw [howner]
            exact names_getElem_eq hnames hiMs hi
          have htmem : t ∈ ms.map (fun m => m.name) := by
            rw [hnames]
            exact resolve_import_val hres
          obtain ⟨k, hkm, hkval⟩ := List.mem_iff_getElem.mp htmem
          have hk : k < ms.length := by simpa using hkm
          have hkname : ms[k].name = t := by
            rw [List.getElem_map] at hkval
            exact hkval
          have hget := edgeStep_getElem t ownerName i k ms hndms hk hkname
          have hlenF :
              (updateLastNamed t (addDependent ownerName)
                (modifyAt (addDependency t) i ms)).length = ms.length := by
            rw [length_updateLastNamed, length_modifyAt]
          refine ⟨?_, ?_, ?_⟩
          · rw [map_name_updateLastNamed _ _ (addDependent_name ownerName),
              map_name_modifyAt _ (addDependency_name t), hnames]
          · intro p q hp hq
            have hp2 : p < ms.length := by omega
            have hq2 : q < ms.length := by omega
            have hep := hget p hp2
            rw [List.getElem?_eq_getElem hp] at hep
            replace hep := Option.some.inj hep
            have heq := hget q hq2
            rw [List.getElem?_eq_getElem hq] at heq
            replace heq := Option.some.inj heq
            have hepname :
                (updateLastNamed t (addDependent ownerName)
                  (modifyAt (addDependency t) i ms))[p].name = ms[p].name := by
              rw [hep]
            have hepdts :
                (updateLastNamed t (addDependent ownerName)
                  (modifyAt (addDependency t) i ms))[p].dependents =
                  if p = k then addSet ms[p].dependents ownerName
                  else ms[p].dependents := by
              rw [hep]
            have heqname :
                (updateLastNamed t (addDependent ownerName)
                  (modifyAt (addDependency t) i ms))[q].name = ms[q].name := by
              rw [heq]
            have heqdeps :
                (updateLastNamed t (addDependent ownerName)
                  (modifyAt (addDependency t) i ms))[q].dependencies =
                  if q = i then addSet ms[q].dependencies t
                  else ms[q].dependencies := by
              rw [heq]
            rw [hepname, hepdts, heqname, heqdeps]
            by_cases hqi : q = i
            · rw [if_pos hqi]
              by_cases hpk : p = k
              · rw [if_pos hpk]
                have hpt : ms[p].name = t := by
                  simp only [hpk]
                  exact hkname
                have hqo : ms[q].name = ownerName := by
                  simp only [hqi]
                  exact howner2
                exact iff_of_true (mem_addSet.mpr (Or.inr hpt))
                  (mem_addSet.mpr (Or.inr hqo))
              · rw [if_neg hpk]
                have hpnt : ¬ ms[p].name = t := by
                  intro hc
                  exact hpk ((name_eq_iff_idx hndms hp2 hk).mp (by rw [hc, hkname]))
                rw [mem_addSet, or_iff_left hpnt]
                exact hsym p q hp2 hq2
            · rw [if_neg hqi]
              by_cases hpk : p = k
              · rw [if_pos hpk]
                have hqno : ¬ ms[q].name = ownerName := by
                  intro hc
                  exact hqi ((name_eq_iff_idx hndms hq2 hiMs).mp (by rw [hc, howner2]))
                rw [mem_addSet, or_iff_left hqno]
                exact hsym p q hp2 hq2
              · rw [if_neg hpk]
                exact hsym p q hp2 hq2
          · intro j hj
            have hj2 : j < ms.length := by omega
            have hej := hget j hj2
            rw [List.getElem?_eq_getElem hj] at hej
            replace hej := Option.some.inj hej
            have hejname :
                (updateLastNamed t (addDependent ownerName)
                  (modifyAt (addDependency t) i ms))[j].name = ms[j].name := by
              rw [hej]
            have hejdeps :
                (updateLastNamed t (addDependent ownerName)
                  (modifyAt (addDependency t) i ms))[j].dependencies =
                  if j = i then addSet ms[j].dependencies t
                  else ms[j].dependencies := by
              rw [hej]
            have hejdts :
                (updateLastNamed t (addDependent ownerName)
                  (modifyAt (addDependency t) i ms))[j].dependents =
                  if j = k then addSet ms[j].dependents ownerName
                  else ms[j].dependents := by
              rw [hej]
            rw [hejname, hejdeps, hejdts]
            constructor
            · by_cases hji2 : j = i
              · rw [if_pos hji2, mem_addSet]
                rintro (hmem | hname)
                · exact (hnse j hj2).1 hmem
                · refine htne ?_
                  rw [← hname]
                  simp only [hji2]
                  exact howner2
              · rw [if_neg hji2]
                exact (hnse j hj2).1
            · by_cases hjk2 : j = k
              · rw [if_pos hjk2, mem_addSet]
                rintro (hmem | hname)
                · exact (hnse j hj2).2 hmem
                · refine htne ?_
                  have h1 : ms[j].name = t := by
                    simp only [hjk2]
                    exact hkname
                  rw [← h1, hname]
              · rw [if_neg hjk2]
                exact (hnse j hj2).2
        · next hcont =>
          exact absurd (by simpa using resolve_import_val hres) hcont

/-- The whole graph walk keeps the original name list and establishes
mirror-symmetry and no-self-edges, starting from fresh modules. -/
theorem build_invariant (root : List String) (mods0 : List Module)
    (mstr : String → List FileStructure)
    (hnd : (mods0.map (fun m => m.name)).Nodup)
    (hempty : ∀ m ∈ mods0, m.dependencies = [] ∧ m.dependents = []) :
    ((DependencyResolver.init root mods0).build_dependency_graph mstr).map
      (fun m => m.name) = mods0.map (fun m => m.name) ∧
    GraphSym ((DependencyResolver.init root mods0).build_dependency_graph mstr) ∧
    NoSelfEdges ((DependencyResolver.init root mods0).build_dependency_graph mstr) := by
  have hbase_sym : GraphSym mods0 := by
    intro p q hp hq
    have h1 := hempty mods0[q] (List.getElem_mem hq)
    have h2 := hempty mods0[p] (List.getElem_mem hp)
    rw [h1.1, h2.2]
    simp
  have hbase_nse : NoSelfEdges mods0 := by
    intro j hj
    have h1 := hempty mods0[j] (List.getElem_mem hj)
    rw [h1.1, h1.2]
    simp
  unfold DependencyResolver.build_dependency_graph
  refine foldl_preserves (P := fun ms =>
      ms.map (fun m => m.name) = mods0.map (fun m => m.name) ∧
      GraphSym ms ∧ NoSelfEdges ms) ⟨rfl, hbase_sym, hbase_nse⟩ ?_
  rintro ms idx ⟨hnames, hsym, hnse⟩ hidx
  split
  · exact ⟨hnames, hsym, hnse⟩
  · next m hm =>
    have hidx0 : idx < mods0.length := by
      have := List.mem_range.mp hidx
      simpa using this
    have hlen : ms.length = mods0.length := names_length_eq hnames
    have hidxMs : idx < ms.length := by omega
    have hmval : m = ms[idx] := by
      rw [List.getElem?_eq_getElem hidxMs] at hm
      exact (Option.some.inj hm).symm
    have hmname : m.name = mods0[idx].name := by
      rw [hmval]
      exact names_getElem_eq hnames hidxMs hidx0
    refine foldl_preserves (P := fun ms =>
        ms.map (fun m => m.name) = mods0.map (fun m => m.name) ∧
        GraphSym ms ∧ NoSelfEdges ms) ⟨hnames, hsym, hnse⟩ ?_
    rintro ms2 s ⟨hn2, hs2, he2⟩ hsmem
    refine foldl_preserves (P := fun ms =>
        ms.map (fun m => m.name) = mods0.map (fun m => m.name) ∧
        GraphSym ms ∧ NoSelfEdges ms) ⟨hn2, hs2, he2⟩ ?_
    rintro ms3 imp ⟨hn3, hs3, he3⟩ himpmem
    exact processImport_pres root mods0 hnd idx hidx0 m.name hmname s.path imp ms3
      hn3 hs3 he3

/-- C3: after `build_dependency_graph` completes on a resolver built from a
module list with distinct names and fresh (empty) adjacency sets — the shape
`group_files` hands it — membership is mirror-symmetric: for every two
modules of the result, A is among B's dependencies exactly when B is among
A's dependents. -/
theorem claim3_graph_symmetry (root : List String) (mods0 : List Module)
    (mstr : String → List FileStructure)
    (hnd : (mods0.map (fun m => m.name)).Nodup)
    (hempty : ∀ m ∈ mods0, m.dependencies = [] ∧ m.dependents = []) :
    ∀ a ∈ (DependencyResolver.init root mods0).build_dependency_graph mstr,
      ∀ b ∈ (DependencyResolver.init root mods0).build_dependency_graph mstr,
        (a.name ∈ b.dependencies ↔ b.name ∈ a.dependents) := by
  obtain ⟨hnames, hsym, hnse⟩ := build_invariant root mods0 mstr hnd hempty
  intro a ha b hb
  rcases List.mem_iff_getElem.mp ha with ⟨p, hp, rfl⟩
  rcases List.mem_iff_getElem.mp hb with ⟨q, hq, rfl⟩
  exact hsym p q hp hq

/-- C3 witness: the spec §8 scenario — `src/codegen` imports a `src/parser`
header — evaluated through the symmetry theorem. -/
theorem claim3_witness :
    scnParserOut.name ∈ scnCodegenOut.dependencies ↔
      scnCodegenOut.name ∈ scnParserOut.dependents :=
  claim3_graph_symmetry scnRoot [scnParser, scnCodegen] scnMstr (by decide)
    (by decide) scnParserOut (by decide) scnCodegenOut (by decide)

theorem foldl_congruent {α β : Type} (f g : α → β → α) :
    ∀ (l : List β), (∀ s b, b ∈ l → f s b = g s b) →
      ∀ init, l.foldl f init = l.foldl g init := by
  intro l
  induction l with
  | nil => intro _ _; rfl
  | cons x xs ih =>
    intro h init
    show xs.foldl f (f init x) = xs.foldl g (g init x)
    rw [h init x (List.mem_cons_self _ _)]
    exact ih (fun s b hb => h s b (List.mem_cons_of_mem _ hb)) (g init x)

/-- A system import is skipped outright. -/
theorem processImport_system (r : DependencyResolver) (names : List String)
    (i : Nat) (ownerName : String) (fpath : List String) (ms : List Module)
    (imp : ImportInfo) (hsys : imp.is_system = true) :
    processImport r names i ownerName fpath ms imp = ms := by
  unfold processImport
  rw [if_pos hsys]

/-- Walking an import list equals walking its non-system sublist. -/
theorem foldl_imports_filter (r : DependencyResolver) (names : List String)
    (i : Nat) (ownerName : String) (fpath : List String) :
    ∀ (imports : List ImportInfo) (ms : List Module),
      imports.foldl (fun ms3 imp => processImport r names i ownerName fpath ms3 imp) ms =
      (imports.filter (fun imp => !imp.is_system)).foldl
        (fun ms3 imp => processImport r names i ownerName fpath ms3 imp) ms := by
  intro imports
  induction imports with
  | nil => intro _; rfl
  | cons imp rest ih =>
    intro ms
    rw [List.foldl_cons, List.filter_cons]
    cases hsys : imp.is_system with
    | true =>
      rw [processImport_system r names i ownerName fpath ms imp hsys]
      simp only [hsys, Bool.not_true, Bool.false_eq_true, if_false]
      exact ih ms
    | false =>
      simp only [hsys, Bool.not_false, if_true, List.foldl_cons]
      exact ih (processImport r names i ownerName fpath ms imp)

theorem GraphLE_refl (ms : List Module) : GraphLE ms ms := by
  refine ⟨rfl, ?_⟩
  intro j a b ha hb
  rw [ha] at hb
  cases hb
  exact ⟨fun x hx => hx, fun x hx => hx⟩

theorem GraphLE_trans {a b c : List Module}
    (h1 : GraphLE a b) (h2 : GraphLE b c) : GraphLE a c := by
  obtain ⟨hn1, he1⟩ := h1
  obtain ⟨hn2, he2⟩ := h2
  refine ⟨hn2.trans hn1, ?_⟩
  intro j x z hx hz
  have hlen : b.length = a.length := names_length_eq hn1
  have hj : j < a.length := (List.getElem?_eq_some_iff.mp hx).1
  have hjb : j < b.length := by omega
  have hyb : b[j]? = some b[j] := List.getElem?_eq_getElem hjb
  obtain ⟨s1, s2⟩ := he1 j x b[j] hx hyb
  obtain ⟨s3, s4⟩ := he2 j b[j] z hyb hz
  exact ⟨s1.trans s3, s2.trans s4⟩

theorem GraphLE_modifyAt (t : String) (i : Nat) (ms : List Module) :
    GraphLE ms (modifyAt (addDependency t) i ms) := by
  refine ⟨map_name_modifyAt _ (addDependency_name t) i ms, ?_⟩
  intro j a b ha hb
  rw [getElem?_modifyAt, ha] at hb
  by_cases hij : i = j
  · rw [if_pos hij] at hb
    have hb2 : some (addDependency t a) = some b := hb
    cases hb2
    exact ⟨subset_addSet _ _, fun x hx => hx⟩
  · rw [if_neg hij] at hb
    cases hb
    exact ⟨fun x hx => hx, fun x hx => hx⟩

theorem GraphLE_cons {m m' : Module} {rest rest' : List Module}
    (hname : m'.name = m.name) (hdep : m.dependencies ⊆ m'.dependencies)
    (hdts : m.dependents ⊆ m'.dependents) (hrest : GraphLE rest rest') :
    GraphLE (m :: rest) (m' :: rest') := by
  obtain ⟨hn, hel⟩ := hrest
  refine ⟨by simp [hname, hn], ?_⟩
  intro j a b ha hb
  cases j with
  | zero =>
    simp only [List.getElem?_cons_zero] at ha hb
    cases ha
    cases hb
    exact ⟨hdep, hdts⟩
  | succ n =>
    simp only [List.getElem?_cons_succ] at ha hb
    exact hel n a b ha hb

theorem GraphLE_updateLastNamed (t src : String) :
    ∀ ms : List Module, GraphLE ms (updateLastNamed t (addDependent src) ms) := by
  intro ms
  induction ms with
  | nil => exact GraphLE_refl []
  | cons m rest ih =>
    by_cases h1 : rest.any (fun x => x.name == t) = true
    · have hstep : updateLastNamed t (addDependent src) (m :: rest) =
          m :: updateLastNamed t (addDependent src) rest := by
        simp [updateLastNamed, h1]
      rw [hstep]
      exact GraphLE_cons rfl (fun x hx => hx) (fun x hx => hx) ih
    · by_cases h2 : m.name = t
      · have hstep : updateLastNamed t (addDependent src) (m :: rest) =
            addDependent src m :: rest := by
          simp [updateLastNamed, h1, h2]
        rw [hstep]
        exact GraphLE_cons (addDependent_name src m) (fun x hx => hx) (subset_addSet _ _)
          (GraphLE_refl rest)
      · have hstep : updateLastNamed t (addDependent src) (m :: rest) =
            m :: updateLastNamed t (addDependent src) rest := by
          simp [updateLastNamed, h1, h2]
        rw [hstep]
        exact GraphLE_cons rfl (fun x hx => hx) (fun x hx => hx) ih

theorem GraphLE_processImport (r : DependencyResolver) (names : List String)
    (i : Nat) (ownerName : String) (fpath : List String) (ms : List Module)
    (imp : ImportInfo) :
    GraphLE ms (processImport r names i ownerName fpath ms imp) := by
  unfold processImport
  split
  · exact GraphLE_refl ms
  · split
    · exact GraphLE_refl ms
    · next t hres =>
      split
      · exact GraphLE_refl ms
      · split
        · exact GraphLE_trans (GraphLE_modifyAt t i ms)
            (GraphLE_updateLastNamed t ownerName _)
        · exact GraphLE_modifyAt t i ms

theorem GraphLE_foldl {β : Type} (f : List Module → β → List Module)
    (l : List β) (init : List Module)
    (h : ∀ s b, b ∈ l → GraphLE s (f s b)) : GraphLE init (l.foldl f init) := by
  refine foldl_preserves (P := fun s => GraphLE init s) (GraphLE_refl init) ?_
  intro s b hs hb
  exact GraphLE_trans hs (h s b hb)

/-- The range step of the graph walk only extends the module list. -/
theorem GraphLE_buildStep (r : DependencyResolver)
    (mstr : String → List FileStructure) (ms : List Module) (i : Nat) :
    GraphLE ms
      (match ms[i]? with
       | none => ms
       | some m =>
         (mstr m.name).foldl (fun ms2 s =>
           s.imports.foldl
             (fun ms3 imp =>
               processImport r (r.modules.map (fun x => x.name)) i m.name s.path ms3 imp)
             ms2) ms) := by
  split
  · exact GraphLE_refl ms
  · next m hm =>
    refine GraphLE_foldl _ _ _ ?_
    intro ms2 s _
    refine GraphLE_foldl _ _ _ ?_
    intro ms3 imp _
    exact GraphLE_processImport r _ i m.name s.path ms3 imp

/-- Reaching a fold's result through one distinguished element: a property
established when the fold processes `b` (from any state reachable from
`init`) and preserved by every later step holds of the fold's result. -/
theorem foldl_reach {α β : Type} (R : α → α → Prop) (f : α → β → α)
    (hrefl : ∀ a, R a a)
    (htrans : ∀ a₁ a₂ a₃, R a₁ a₂ → R a₂ a₃ → R a₁ a₃) :
    ∀ (l : List β) (init : α) (Q : α → Prop) (b : β),
      (∀ s x, x ∈ l → R s (f s x)) → b ∈ l →
      (∀ s, R init s → Q (f s b)) →
      (∀ s x, x ∈ l → Q s → Q (f s x)) →
      Q (l.foldl f init) := by
  intro l
  induction l with
  | nil =>
    intro init Q b _ hb
    cases hb
  | cons x xs ih =>
    intro init Q b hmono hb hQ hkeep
    rcases List.mem_cons.mp hb with rfl | hb2
    · show Q (xs.foldl f (f init b))
      exact foldl_preserves (hQ init (hrefl init))
        (fun s y hs hy => hkeep s y (List.mem_cons_of_mem _ hy) hs)
    · show Q (xs.foldl f (f init x))
      exact ih (f init x) Q b
        (fun s y hy => hmono s y (List.mem_cons_of_mem _ hy))
        hb2
        (fun s hrs => hQ s (htrans _ _ _ (hmono init x (List.mem_cons_self _ _)) hrs))
        (fun s y hy hq => hkeep s y (List.mem_cons_of_mem _ hy) hq)

/-- The positive membership facts of one edge survive any graph
extension. -/
theorem graphQ_mono (nmOwner tgt : String) {u v : List Module}
    (hle : GraphLE u v)
    (hq : ∀ j (hj : j < u.length),
      (u[j].name = nmOwner → tgt ∈ u[j].dependencies) ∧
      (u[j].name = tgt → nmOwner ∈ u[j].dependents)) :
    ∀ j (hj : j < v.length),
      (v[j].name = nmOwner → tgt ∈ v[j].dependencies) ∧
      (v[j].name = tgt → nmOwner ∈ v[j].dependents) := by
  obtain ⟨hn, hel⟩ := hle
  intro j hj
  have hlen : v.length = u.length := names_length_eq hn
  have hju : j < u.length := by omega
  have h1 := hq j hju
  have hname : v[j].name = u[j].name := names_getElem_eq hn hj hju
  obtain ⟨hd, hdt⟩ := hel j u[j] v[j] (List.getElem?_eq_getElem hju)
    (List.getElem?_eq_getElem hj)
  constructor
  · intro hx
    exact hd (h1.1 (by rw [← hname]; exact hx))
  · intro hx
    exact hdt (h1.2 (by rw [← hname]; exact hx))

/-- Processing one non-system import that resolves to a distinct module adds
the target to the owner position's dependencies and the owner to the
target-named position's dependents. -/
theorem processImport_establishes (root : List String) (mods0 : List Module)
    (hnd : (mods0.map (fun m => m.name)).Nodup)
    (i : Nat) (hi : i < mods0.length)
    (fpath : List String) (imp : ImportInfo) (hsys : imp.is_system = false)
    (t : String)
    (hres : (DependencyResolver.init root mods0).resolve_import fpath imp.name = some t)
    (htne : ¬ t = mods0[i].name)
    (ms3 : List Module)
    (hn3 : ms3.map (fun m => m.name) = mods0.map (fun m => m.name)) :
    ∀ j (hj : j < (processImport (DependencyResolver.init root mods0)
        ((DependencyResolver.init root mods0).modules.map (fun x => x.name)) i
        mods0[i].name fpath ms3 imp).length),
      ((processImport (DependencyResolver.init root mods0)
          ((DependencyResolver.init root mods0).modules.map (fun x => x.name)) i
          mods0[i].name fpath ms3 imp)[j].name = mods0[i].name →
        t ∈ (processImport (DependencyResolver.init root mods0)
          ((DependencyResolver.init root mods0).modules.map (fun x => x.name)) i
          mods0[i].name fpath ms3 imp)[j].dependencies) ∧
      ((processImport (DependencyResolver.init root mods0)
          ((DependencyResolver.init root mods0).modules.map (fun x => x.name)) i
          mods0[i].name fpath ms3 imp)[j].name = t →
        mods0[i].name ∈ (processImport (DependencyResolver.init root mods0)
          ((DependencyResolver.init root mods0).modules.map (fun x => x.name)) i
          mods0[i].name fpath ms3 imp)[j].dependents) := by
  have hsys' : ¬ imp.is_system = true := by simp [hsys]
  have hcont : (((DependencyResolver.init root mods0).modules).map
      (fun x => x.name)).contains t = true := by
    show ((mods0.map (fun x => x.name)).contains t = true)
    have hmem : t ∈ mods0.map (fun x => x.name) := resolve_import_val hres
    simpa using hmem
  have hstep : processImport (DependencyResolver.init root mods0)
      ((DependencyResolver.init root mods0).modules.map (fun x => x.name)) i
      mods0[i].name fpath ms3 imp =
      updateLastNamed t (addDependent mods0[i].name)
        (modifyAt (addDependency t) i ms3) := by
    unfold processImport
    rw [if_neg hsys']
    simp only [hres]
    rw [if_neg htne, if_pos hcont]
  rw [hstep]
  have hndms3 : (ms3.map (fun m => m.name)).Nodup := by
    rw [hn3]
    exact hnd
  have hlen3 : ms3.length = mods0.length := names_length_eq hn3
  have hiMs : i < ms3.length := by omega
  have htmem : t ∈ ms3.map (fun m => m.name) := by
    rw [hn3]
    exact resolve_import_val hres
  obtain ⟨k, hkm, hkval⟩ := List.mem_iff_getElem.mp htmem
  have hk : k < ms3.length := by simpa using hkm
  have hkname : ms3[k].name = t := by
    rw [List.getElem_map] at hkval
    exact hkval
  have hget := edgeStep_getElem t mods0[i].name i k ms3 hndms3 hk hkname
  have hlenF : (updateLastNamed t (addDependent mods0[i].name)
      (modifyAt (addDependency t) i ms3)).length = ms3.length := by
    rw [length_updateLastNamed, length_modifyAt]
  intro j hj
  have hj2 : j < ms3.length := by omega
  have hej := hget j hj2
  rw [List.getElem?_eq_getElem hj] at hej
  replace hej := Option.some.inj hej
  have hejname : (updateLastNamed t (addDependent mods0[i].name)
      (modifyAt (addDependency t) i ms3))[j].name = ms3[j].name := by
    rw [hej]
  have hejdeps : (updateLastNamed t (addDependent mods0[i].name)
      (modifyAt (addDependency t) i ms3))[j].dependencies =
      if j = i then addSet ms3[j].dependencies t else ms3[j].dependencies := by
    rw [hej]
  have hejdts : (updateLastNamed t (addDependent mods0[i].name)
      (modifyAt (addDependency t) i ms3))[j].dependents =
      if j = k then addSet ms3[j].dependents mods0[i].name
      else ms3[j].dependents := by
    rw [hej]
  rw [hejname, hejdeps, hejdts]
  constructor
  · intro hname
    have hji : j = i := by
      refine (name_eq_iff_idx hndms3 hj2 hiMs).mp ?_
      rw [hname]
      exact (names_getElem_eq hn3 hiMs hi).symm
    rw [if_pos hji]
    exact mem_addSet.mpr (Or.inr rfl)
  · intro hname
    have hjk : j = k := by
      refine (name_eq_iff_idx hndms3 hj2 hk).mp ?_
      rw [hname, hkname]
    rw [if_pos hjk]
    exact mem_addSet.mpr (Or.inr rfl)

/-- C4: the walk adds an edge for exactly the intended imports — system
imports never produce an edge (the graph equals the graph of the
system-filtered structures), a non-system import resolving to a distinct
module `t` puts `t` in the owner's dependencies and the owner in `t`'s
dependents, and consequently no module of the result lists itself among its
own dependencies or dependents. -/
theorem claim4_edge_rules (root : List String) (mods0 : List Module)
    (mstr : String → List FileStructure)
    (hnd : (mods0.map (fun m => m.name)).Nodup)
    (hempty : ∀ m ∈ mods0, m.dependencies = [] ∧ m.dependents = []) :
    ((DependencyResolver.init root mods0).build_dependency_graph mstr =
      (DependencyResolver.init root mods0).build_dependency_graph
        (fun n => (mstr n).map
          (fun s => { s with imports := s.imports.filter (fun imp => !imp.is_system) }))) ∧
    (∀ i (hi : i < mods0.length), ∀ s ∈ mstr mods0[i].name, ∀ imp ∈ s.imports,
      imp.is_system = false →
      ∀ t, (DependencyResolver.init root mods0).resolve_import s.path imp.name = some t →
      ¬ t = mods0[i].name →
      ∀ b ∈ (DependencyResolver.init root mods0).build_dependency_graph mstr,
        (b.name = mods0[i].name → t ∈ b.dependencies) ∧
        (b.name = t → mods0[i].name ∈ b.dependents)) ∧
    (∀ b ∈ (DependencyResolver.init root mods0).build_dependency_graph mstr,
      b.name ∉ b.dependencies ∧ b.name ∉ b.dependents) := by
  refine ⟨?_, ?_, ?_⟩
  · unfold DependencyResolver.build_dependency_graph
    refine foldl_congruent _ _ (List.range _) ?_ _
    intro ms idx _
    split
    · rfl
    · next m _ =>
      rw [List.foldl_map]
      refine foldl_congruent _ _ (mstr m.name) ?_ ms
      intro ms2 s2 _
      exact foldl_imports_filter _ _ idx m.name s2.path s2.imports ms2
  · intro i hi s hsmem imp himpmem hsys t hres htne
    have hmaster : ∀ j (hj : j <
        ((DependencyResolver.init root mods0).build_dependency_graph mstr).length),
        (((DependencyResolver.init root mods0).build_dependency_graph mstr)[j].name =
            mods0[i].name →
          t ∈ ((DependencyResolver.init root mods0).build_dependency_graph
            mstr)[j].dependencies) ∧
        (((DependencyResolver.init root mods0).build_dependency_graph mstr)[j].name = t →
          mods0[i].name ∈ ((DependencyResolver.init root mods0).build_dependency_graph
            mstr)[j].dependents) := by
      unfold DependencyResolver.build_dependency_graph
      refine foldl_reach GraphLE _ GraphLE_refl
        (fun a b c h1 h2 => GraphLE_trans h1 h2) (List.range _) _
        (fun msOut => ∀ j (hj : j < msOut.length),
          (msOut[j].name = mods0[i].name → t ∈ msOut[j].dependencies) ∧
          (msOut[j].name = t → mods0[i].name ∈ msOut[j].dependents)) i
        ?_ ?_ ?_ ?_
      · exact fun s' x _ => GraphLE_buildStep _ mstr s' x
      · exact List.mem_range.mpr hi
      · intro msA hle
        have hnA := hle.1
        have hlenA : msA.length = mods0.length := names_length_eq hnA
        have hiA : i < msA.length := by omega
        have hmA : msA[i]? = some msA[i] := List.getElem?_eq_getElem hiA
        simp only [hmA]
        have hmAname : msA[i].name = mods0[i].name := names_getElem_eq hnA hiA hi
        simp only [hmAname]
        refine foldl_reach GraphLE _ GraphLE_refl
          (fun a b c h1 h2 => GraphLE_trans h1 h2) (mstr mods0[i].name) msA
          (fun msOut => ∀ j (hj : j < msOut.length),
            (msOut[j].name = mods0[i].name → t ∈ msOut[j].dependencies) ∧
            (msOut[j].name = t → mods0[i].name ∈ msOut[j].dependents)) s
          ?_ hsmem ?_ ?_
        · exact fun s2 x _ => GraphLE_foldl _ _ _
            (fun s3 y _ => GraphLE_processImport _ _ i _ x.path s3 y)
        · intro ms2 hle2
          refine foldl_reach GraphLE _ GraphLE_refl
            (fun a b c h1 h2 => GraphLE_trans h1 h2) s.imports ms2
            (fun msOut => ∀ j (hj : j < msOut.length),
              (msOut[j].name = mods0[i].name → t ∈ msOut[j].dependencies) ∧
              (msOut[j].name = t → mods0[i].name ∈ msOut[j].dependents)) imp
            ?_ himpmem ?_ ?_
          · exact fun s3 x _ => GraphLE_processImport _ _ i _ s.path s3 x
          · intro ms3 hle3
            have hchain : GraphLE mods0 ms3 :=
              GraphLE_trans (GraphLE_trans hle hle2) hle3
            exact processImport_establishes root mods0 hnd i hi s.path imp hsys t
              hres htne ms3 hchain.1
          · intro s3 x _ hq
            exact graphQ_mono _ _ (GraphLE_processImport _ _ i _ s.path s3 x) hq
        · intro s2 x _ hq
          exact graphQ_mono _ _
            (GraphLE_foldl _ _ _
              (fun s3 y _ => GraphLE_processImport _ _ i _ x.path s3 y)) hq
      · intro s' x _ hq
        exact graphQ_mono _ _ (GraphLE_buildStep _ mstr s' x) hq
    intro b hb
    rcases List.mem_iff_getElem.mp hb with ⟨j, hj, rfl⟩
    exact hmaster j hj
  · intro b hb
    obtain ⟨_, _, hnse⟩ := build_invariant root mods0 mstr hnd hempty
    rcases List.mem_iff_getElem.mp hb with ⟨j, hj, rfl⟩
    exact hnse j hj

/-- C4 witness: the spec §8 scenario — the non-system `"../parser/a.h"`
include of `src/codegen/c.cpp` produces the edge in both directions, and the
result has no self-edges. -/
theorem claim4_witness :
    ("src/parser" ∈ scnCodegenOut.dependencies ∧
      "src/codegen" ∈ scnParserOut.dependents) ∧
    (scnParserOut.name ∉ scnParserOut.dependencies ∧
      scnParserOut.name ∉ scnParserOut.dependents) := by
  have h := claim4_edge_rules scnRoot [scnParser, scnCodegen] scnMstr (by decide)
    (by decide)
  have hedge := h.2.1 1 (by decide)
    { path := ["r", "src", "codegen", "c.cpp"],
      imports := [⟨"../parser/a.h", false⟩, ⟨"vector", true⟩] } (by decide)
    ⟨"../parser/a.h", false⟩ (by decide) rfl "src/parser" (by decide) (by decide)
  have hself := h.2.2 scnParserOut (by decide)
  refine ⟨⟨?_, ?_⟩, hself⟩
  · exact (hedge scnCodegenOut (by decide)).1 rfl
  · exact (hedge scnParserOut (by decide)).2 rfl

end LLMap
